import Mathlib

/-!
# Verification of the extant-species extraction program

A shallow embedding of `src/main.rs` of the `extract_extant_script`
repository, together with proofs about the pruning pipeline.

The program works on a `FlatTree`: an arena of node records addressed by
index, with parent/child links stored as optional indices.  The arena type
and its pre-order iteration come from the external `newick_parser` crate
(spec §3, §4.4); records are stored in pre-order, so that the position of a
record in the iteration equals its arena index — this is how `main.rs`
itself uses the enumerated positions (it feeds them straight back into
`flat_tree[index]`).

Numeric depths in the program are `f64`.  Depths are only ever compared
(never combined arithmetically) by the code under verification, so a depth
value is modelled as `Option ℚ`: `some q` is an ordinary comparable value,
`none` models a NaN, for which `partial_cmp` returns `None` and the
comparator's `unwrap` panics.

Rust panics (`unwrap`, `expect`, out-of-bounds indexing) are modelled by
`Option`: a function returns `none` exactly when the Rust original panics.
-/

/-- A floating-point value as far as this program can observe it:
`some q` is a comparable numeric value, `none` is a NaN. -/
abbrev FVal := Option ℚ

/-- One record of the arena, mirroring `newick_parser::node::FlatNode`
as described by the spec (§3): name, branch length, optional depth,
and optional parent / left-child / right-child indices. -/
structure FlatNode where
  name : String
  branch_length : FVal
  depth : Option FVal
  parent : Option Nat
  left_child : Option Nat
  right_child : Option Nat
  deriving Repr, DecidableEq

/-- The arena: records in pre-order, plus the designated root index. -/
structure FlatTree where
  nodes : List FlatNode
  root : Nat
  deriving Repr, DecidableEq

/-- `enumF k xs` models `.iter().enumerate()` (starting at `k`):
each element paired with its position. -/
def enumF (k : Nat) : List α → List (Nat × α)
  | [] => []
  | x :: xs => (k, x) :: enumF (k + 1) xs

/-- `mapOpt f xs` models mapping a closure that may panic over an iterator
and collecting: the result is `none` iff `f` panics on some element. -/
def mapOpt (f : α → Option β) : List α → Option (List β)
  | [] => some []
  | x :: xs =>
    match f x, mapOpt f xs with
    | some y, some ys => some (y :: ys)
    | _, _ => none

/-- Write through an index: `setF ns i f` models `ns[i] = f(ns[i])`,
panicking (`none`) when `i` is out of bounds. -/
def setF (ns : List FlatNode) (i : Nat) (f : FlatNode → FlatNode) :
    Option (List FlatNode) :=
  (ns[i]?).map fun nd => ns.set i (f nd)

/-- The record of a Rust leaf test: both child links absent (spec §4.4). -/
def isLeafNd (nd : FlatNode) : Bool :=
  nd.left_child.isNone && nd.right_child.isNone

/-- The pre-order enumerated leaf records, as produced by
`flat_tree.iter(TraversalOrder::PreOrder).enumerate().filter(...)`
in `find_all_leaves` and `find_deepest_nodes`. -/
def leafRecs (ft : FlatTree) : List (Nat × FlatNode) :=
  (enumF 0 ft.nodes).filter fun p => isLeafNd p.2

/-- `find_all_leaves` from `main.rs`: indices of all records without
children, in discovery (= arena) order. -/
def find_all_leaves (ft : FlatTree) : List Nat :=
  (leafRecs ft).map (·.1)

/-- Rust's `PartialOrd` comparison on depths, specialised to the use in
`find_deepest_nodes`: `dge a b` decides whether `a` may precede `b` in the
descending order.  On NaN the answer is arbitrary (`true`); the sort model
is only consulted on NaN-free inputs (otherwise the comparator's `unwrap`
panics first, see `find_deepest_nodes`). -/
def dge (a b : FVal) : Bool :=
  match a, b with
  | some x, some y => decide (y ≤ x)
  | _, _ => true

/-- Stable insertion of an element in front of the first strictly-smaller
entry: together with `isortD` this is the extensional behaviour of Rust's
stable `sort_by` with the descending comparator
`|a, b| b.1.partial_cmp(&a.1).unwrap()`. -/
def insertD (x : Nat × FVal) : List (Nat × FVal) → List (Nat × FVal)
  | [] => [x]
  | y :: ys => if dge x.2 y.2 then x :: y :: ys else y :: insertD x ys

/-- Stable sort, descending by depth.  Any two stable sorts agree
extensionally once the comparator is total, so insertion sort is a faithful
model of `slice::sort_by` (documented stable) on NaN-free input. -/
def isortD : List (Nat × FVal) → List (Nat × FVal)
  | [] => []
  | x :: xs => insertD x (isortD xs)

/-- Whether the comparator of `sort_by` panics: Rust's stable sort makes no
comparator call on slices of length `< 2`, and on longer slices every
element takes part in at least one comparison, so the `unwrap` inside the
comparator fires exactly when the slice has length `≥ 2` and some depth is
NaN (`partial_cmp` on f64 returns `None` iff an operand is NaN). -/
def sortPanics (lwd : List (Nat × FVal)) : Bool :=
  decide (2 ≤ lwd.length) && lwd.any fun p => p.2.isNone

/-- `find_deepest_nodes` from `main.rs`: pair each leaf with its unwrapped
depth, stably sort by depth descending, take the first `nb_leaves` indices.
`none` models the panics: a leaf whose `depth` is `None` (`.unwrap()` on
the depth), or a NaN depth met by the comparator's `.unwrap()`. -/
def find_deepest_nodes (ft : FlatTree) (nb_leaves : Nat) : Option (List Nat) :=
  match mapOpt (fun p => p.2.depth.map fun d => (p.1, d)) (leafRecs ft) with
  | none => none
  | some lwd =>
    if sortPanics lwd then none
    else some (((isortD lwd).take nb_leaves).map (·.1))

/-- `leaves_to_be_removed` from `main.rs`: the leaves not in the sampled
list, in order. -/
def leaves_to_be_removed (leaves sampled_leaves : List Nat) : List Nat :=
  leaves.filter fun leaf => !(sampled_leaves.contains leaf)

/-- `change_tree` from `main.rs`: splice the leaf at `index` (and its
parent) out of the tree.  The steps and their order mirror the source:
read the parent (panic if absent: "The root is apparently a leaf."),
unwrap the parent's left child, determine the sister, read the
grandparent, then clear the parent's parent link, re-parent the sister,
and redirect the grandparent's child link — the grandparent's record is
re-read after the first two writes, as in the source. -/
def change_tree (ft : FlatTree) (index : Nat) : Option FlatTree :=
  (ft.nodes[index]?).bind fun ndL =>
  ndL.parent.bind fun parent_index =>
  (ft.nodes[parent_index]?).bind fun ndP =>
  ndP.left_child.bind fun lc =>
  (if lc = index then ndP.right_child else some lc).bind fun sister_index =>
  let grandparent_index_opt := ndP.parent
  (setF ft.nodes parent_index fun nd =>
    { nd with parent := none }).bind fun ns1 =>
  (setF ns1 sister_index fun nd =>
    { nd with parent := grandparent_index_opt }).bind fun ns2 =>
  (match grandparent_index_opt with
    | none => some ns2
    | some grandparent_index =>
      (ns2[grandparent_index]?).bind fun ndG =>
      if ndG.left_child = some parent_index then
        setF ns2 grandparent_index fun nd =>
          { nd with left_child := some sister_index }
      else
        setF ns2 grandparent_index fun nd =>
          { nd with right_child := some sister_index }).bind fun ns3 =>
  some { ft with nodes := ns3 }

/-- `remove_all_unsampled` from `main.rs`: apply `change_tree` once per
listed index, left to right. -/
def remove_all_unsampled (ft : FlatTree) (list_indexes : List Nat) :
    Option FlatTree :=
  list_indexes.foldlM change_tree ft

/-- `find_root` from `main.rs`, with explicit fuel: follow parent links
upward until a record with no parent is found.  The Rust loop has no fuel;
`none` covers both a missing record (index panic) and fuel exhaustion
(which at sufficient fuel corresponds to a cyclic parent chain, on which
the Rust loop diverges). -/
def find_root (fuel : Nat) (ft : FlatTree) (true_leaf : Nat) : Option Nat :=
  match fuel with
  | 0 => none
  | fuel + 1 =>
    (ft.nodes[true_leaf]?).bind fun nd =>
    match nd.parent with
    | none => some true_leaf
    | some parent => find_root fuel ft parent

/-- Following the parent link `n` times (no stopping at the root):
the raw chain that `find_root` walks. -/
def parentIter (ft : FlatTree) : Nat → Nat → Option Nat
  | 0, i => some i
  | n + 1, i =>
    (ft.nodes[i]?).bind fun nd =>
    nd.parent.bind fun p =>
    parentIter ft n p

/-- Outcome of the fallible pipeline: `ok` a value, `ioErr` an error
returned through the `Result` channel of
`species_tree_sample_to_string`, `panicked` a Rust panic (which never
reaches the `Result` channel). -/
inductive RRes (α : Type) where
  | ok : α → RRes α
  | ioErr : RRes α
  | panicked : RRes α
  deriving Repr, DecidableEq

/-- The pruning portion of `species_tree_sample_to_string` in `main.rs`,
from the flattened, depth-annotated tree up to the root update: sample the
deepest leaves, remove the complement, then recompute the root by walking
up from `sampled_leaves[0]` (indexing that panics when the sample is
empty) and store it in `flat_tree.root`.  The fuel `ft1.nodes.length + 1`
is sufficient for every acyclic parent chain. -/
def sample_pipeline (ft : FlatTree) (nb_leaves : Nat) : RRes FlatTree :=
  match find_deepest_nodes ft nb_leaves with
  | none => .panicked
  | some sampled_leaves =>
    let leaves := find_all_leaves ft
    let to_remove := leaves_to_be_removed leaves sampled_leaves
    match remove_all_unsampled ft to_remove with
    | none => .panicked
    | some ft1 =>
      match sampled_leaves[0]? with
      | none => .panicked
      | some first_leaf =>
        match find_root (ft1.nodes.length + 1) ft1 first_leaf with
        | none => .panicked
        | some root_of_species_tree =>
          .ok { ft1 with root := root_of_species_tree }

/-- The shape of the part of the arena reachable from a root index:
an abstract binary tree of arena indices. -/
inductive STree where
  | leaf : Nat → STree
  | node : Nat → STree → STree → STree
  deriving Repr, DecidableEq

/-- The arena index at the root of an abstract tree. -/
def STree.idx : STree → Nat
  | .leaf i => i
  | .node i _ _ => i

/-- All arena indices of an abstract tree, in pre-order. -/
def STree.idxList : STree → List Nat
  | .leaf i => [i]
  | .node i l r => i :: (l.idxList ++ r.idxList)

/-- The leaf indices of an abstract tree, in pre-order. -/
def STree.leafIdx : STree → List Nat
  | .leaf i => [i]
  | .node _ l r => l.leafIdx ++ r.leafIdx

/-- Number of nodes of an abstract tree. -/
def STree.size : STree → Nat
  | .leaf _ => 1
  | .node _ l r => 1 + l.size + r.size

/-- Read the abstract tree hanging below index `i` by following child
links.  Fails (`none`) on a missing record, on a node with exactly one
child — the binary-shape violation — or on fuel exhaustion; success with
any fuel therefore certifies that every node reachable from `i` has zero
or two children. -/
def readTree (ft : FlatTree) : Nat → Nat → Option STree
  | 0, _ => none
  | fuel + 1, i =>
    (ft.nodes[i]?).bind fun nd =>
    match nd.left_child, nd.right_child with
    | none, none => some (.leaf i)
    | some lc, some rc =>
      (readTree ft fuel lc).bind fun tl =>
      (readTree ft fuel rc).bind fun tr =>
      some (.node i tl tr)
    | _, _ => none

/-- The subtree-local representation invariant: the abstract tree `t`
matches the child links of the arena, and every child's parent link points
back at its abstract parent. -/
def ReprAt (ft : FlatTree) : STree → Prop
  | .leaf i =>
    ∃ nd, ft.nodes[i]? = some nd ∧
      nd.left_child = none ∧ nd.right_child = none
  | .node i l r =>
    (∃ nd, ft.nodes[i]? = some nd ∧
      nd.left_child = some l.idx ∧ nd.right_child = some r.idx) ∧
    (∃ ndl, ft.nodes[l.idx]? = some ndl ∧ ndl.parent = some i) ∧
    (∃ ndr, ft.nodes[r.idx]? = some ndr ∧ ndr.parent = some i) ∧
    ReprAt ft l ∧ ReprAt ft r

instance instDecReprAt (ft : FlatTree) : (t : STree) → Decidable (ReprAt ft t)
  | .leaf _ => by unfold ReprAt; infer_instance
  | .node i l r => by
    unfold ReprAt
    have := instDecReprAt ft l
    have := instDecReprAt ft r
    infer_instance

/-- The full representation invariant: the arena represents the abstract
tree `t` (whose indices are pairwise distinct) as the live tree rooted at
index `t.idx`, whose record has no parent. -/
def Represents (ft : FlatTree) (t : STree) : Prop :=
  t.idxList.Nodup ∧
  (∃ nd, ft.nodes[t.idx]? = some nd ∧ nd.parent = none) ∧
  ReprAt ft t

instance (ft : FlatTree) (t : STree) : Decidable (Represents ft t) := by
  unfold Represents; infer_instance

/-- Abstract effect of one splice: remove the leaf with index `a`
(together with its parent node, replaced by the sibling subtree).
Removing an index that is not a leaf of the tree is the identity. -/
def removeLeaf (t : STree) (a : Nat) : STree :=
  match t with
  | .leaf i => .leaf i
  | .node i l r =>
    if l = .leaf a then r
    else if r = .leaf a then l
    else .node i (removeLeaf l a) (removeLeaf r a)

/-- Number of leaves whose index is not in the removal list `R`:
the leaves the pruning keeps. -/
def countKeep (R : List Nat) : STree → Nat
  | .leaf i => if i ∈ R then 0 else 1
  | .node _ l r => countKeep R l + countKeep R r

/-- Prune in one pass: drop every subtree that keeps no leaf.  This is the
order-free description of what the removal pass computes; it depends on
`R` only through membership. -/
def keepPrune (R : List Nat) : STree → STree
  | .leaf i => .leaf i
  | .node i l r =>
    if countKeep R l = 0 then keepPrune R r
    else if countKeep R r = 0 then keepPrune R l
    else .node i (keepPrune R l) (keepPrune R r)

/-- Two records agree on the fields a splice never touches:
name, branch length and depth. -/
def fieldsNd (a b : FlatNode) : Prop :=
  a.name = b.name ∧ a.branch_length = b.branch_length ∧ a.depth = b.depth

/-- Name, branch length and depth of every record agree between two
arenas (the splices never touch these fields). -/
def FieldsEq (ftA ftB : FlatTree) : Prop :=
  ftA.nodes.length = ftB.nodes.length ∧
  ∀ (j : Nat) (ndA ndB : FlatNode),
    ftA.nodes[j]? = some ndA → ftB.nodes[j]? = some ndB →
    fieldsNd ndA ndB


/-- Index of a successful lookup is in bounds. -/
theorem getElem?_some_lt {l : List α} {i : Nat} {a : α}
    (h : l[i]? = some a) : i < l.length :=
  (List.getElem?_eq_some.mp h).1

/-- Full description of one successful splice.  The hypotheses are the
local well-formedness facts that hold around any leaf of a represented
tree; the conclusion lists the value of every record of the result. -/
theorem change_tree_spec
    (ft : FlatTree) (iL p iS : Nat) (ndL ndP ndS : FlatNode)
    (hL : ft.nodes[iL]? = some ndL)
    (hp : ndL.parent = some p)
    (hP : ft.nodes[p]? = some ndP)
    (hsl : (ndP.left_child = some iL ∧ ndP.right_child = some iS) ∨
           (ndP.left_child = some iS ∧ iS ≠ iL))
    (hS : ft.nodes[iS]? = some ndS)
    (hSp : iS ≠ p)
    (hG : ∀ g, ndP.parent = some g →
      g ≠ p ∧ g ≠ iS ∧ ∃ ndG, ft.nodes[g]? = some ndG) :
    ∃ ft', change_tree ft iL = some ft' ∧
      ft'.root = ft.root ∧
      ft'.nodes.length = ft.nodes.length ∧
      ft'.nodes[p]? = some { ndP with parent := none } ∧
      ft'.nodes[iS]? = some { ndS with parent := ndP.parent } ∧
      (∀ g ndG, ndP.parent = some g → ft.nodes[g]? = some ndG →
        (ndG.left_child = some p →
          ft'.nodes[g]? = some { ndG with left_child := some iS }) ∧
        (ndG.left_child ≠ some p →
          ft'.nodes[g]? = some { ndG with right_child := some iS })) ∧
      (∀ j, j ≠ p → j ≠ iS → ndP.parent ≠ some j →
        ft'.nodes[j]? = ft.nodes[j]?) := by
  have hplt : p < ft.nodes.length := getElem?_some_lt hP
  have hSlt : iS < ft.nodes.length := getElem?_some_lt hS
  have hpS : p ≠ iS := Ne.symm hSp
  set ns1 : List FlatNode := ft.nodes.set p { ndP with parent := none }
    with hns1
  set ns2 : List FlatNode := ns1.set iS { ndS with parent := ndP.parent }
    with hns2
  have h1 : setF ft.nodes p (fun nd => { nd with parent := none })
      = some ns1 := by
    simp [setF, hP, hns1]
  have hns1S : ns1[iS]? = some ndS := by
    rw [hns1, List.getElem?_set_ne hpS]; exact hS
  have h2 : setF ns1 iS (fun nd => { nd with parent := ndP.parent })
      = some ns2 := by
    simp [setF, hns1S, hns2]
  have hlen1 : ns1.length = ft.nodes.length := by
    rw [hns1, List.length_set]
  have hlen2 : ns2.length = ft.nodes.length := by
    rw [hns2, List.length_set, hlen1]
  have hns2P : ns2[p]? = some { ndP with parent := none } := by
    rw [hns2, List.getElem?_set_ne hSp, hns1]
    exact List.getElem?_set_self hplt
  have hns2S : ns2[iS]? = some { ndS with parent := ndP.parent } := by
    rw [hns2]
    exact List.getElem?_set_self (by rwa [hlen1])
  have hns2other : ∀ j, j ≠ p → j ≠ iS → ns2[j]? = ft.nodes[j]? := by
    intro j hjp hjS
    rw [hns2, List.getElem?_set_ne (Ne.symm hjS), hns1,
      List.getElem?_set_ne (Ne.symm hjp)]
  have hmain1 : change_tree ft iL =
      ((match ndP.parent with
        | none => some ns2
        | some grandparent_index =>
          (ns2[grandparent_index]?).bind fun ndG =>
          if ndG.left_child = some p then
            setF ns2 grandparent_index fun nd =>
              { nd with left_child := some iS }
          else
            setF ns2 grandparent_index fun nd =>
              { nd with right_child := some iS }).bind fun ns3 =>
        some { ft with nodes := ns3 }) := by
    unfold change_tree
    rw [hL, Option.some_bind, hp, Option.some_bind, hP, Option.some_bind]
    rcases hsl with ⟨hlc, hrc⟩ | ⟨hlc, hne⟩
    · rw [hlc, Option.some_bind, if_pos rfl, hrc, Option.some_bind]
      show ((setF ft.nodes p fun nd => { nd with parent := none }).bind _
        : Option FlatTree) = _
      rw [h1, Option.some_bind, h2, Option.some_bind]
    · rw [hlc, Option.some_bind, if_neg (fun h => hne h), Option.some_bind]
      show ((setF ft.nodes p fun nd => { nd with parent := none }).bind _
        : Option FlatTree) = _
      rw [h1, Option.some_bind, h2, Option.some_bind]
  cases hgp : ndP.parent with
  | none =>
    rw [hgp] at hmain1 hns2S
    refine ⟨⟨ns2, ft.root⟩, ?_, rfl, hlen2, hns2P, hns2S, ?_, ?_⟩
    · rw [hmain1, Option.some_bind]
    · intro g ndG hg; cases hg
    · intro j hjp hjS _
      exact hns2other j hjp hjS
  | some g =>
    rw [hgp] at hmain1 hns2S
    obtain ⟨hgne, hgS, ndG, hGr⟩ := hG g hgp
    have hns2G : ns2[g]? = some ndG := by
      rw [hns2other g hgne hgS]; exact hGr
    have hglt2 : g < ns2.length := by
      rw [hlen2]; exact getElem?_some_lt hGr
    rw [hmain1]
    simp only [Option.some_bind, hns2G]
    by_cases hGl : ndG.left_child = some p
    · rw [if_pos hGl]
      have h3 : setF ns2 g (fun nd => { nd with left_child := some iS })
          = some (ns2.set g { ndG with left_child := some iS }) := by
        simp [setF, hns2G]
      rw [h3, Option.some_bind]
      refine ⟨_, rfl, rfl, ?_, ?_, ?_, ?_, ?_⟩
      · show (ns2.set g _).length = _
        rw [List.length_set, hlen2]
      · show (ns2.set g _)[p]? = _
        rw [List.getElem?_set_ne hgne]; exact hns2P
      · show (ns2.set g _)[iS]? = _
        rw [List.getElem?_set_ne hgS]; exact hns2S
      · intro g' ndG' hg' hGr'
        cases hg'
        rw [hGr] at hGr'; cases hGr'
        refine ⟨fun _ => ?_, fun h => absurd hGl h⟩
        show (ns2.set g _)[g]? = _
        rw [List.getElem?_set_self hglt2]
      · intro j hjp hjS hjg
        have hjg' : j ≠ g := fun h => hjg (by rw [h])
        show (ns2.set g _)[j]? = _
        rw [List.getElem?_set_ne (Ne.symm hjg')]
        exact hns2other j hjp hjS
    · rw [if_neg hGl]
      have h3 : setF ns2 g (fun nd => { nd with right_child := some iS })
          = some (ns2.set g { ndG with right_child := some iS }) := by
        simp [setF, hns2G]
      rw [h3, Option.some_bind]
      refine ⟨_, rfl, rfl, ?_, ?_, ?_, ?_, ?_⟩
      · show (ns2.set g _).length = _
        rw [List.length_set, hlen2]
      · show (ns2.set g _)[p]? = _
        rw [List.getElem?_set_ne hgne]; exact hns2P
      · show (ns2.set g _)[iS]? = _
        rw [List.getElem?_set_ne hgS]; exact hns2S
      · intro g' ndG' hg' hGr'
        cases hg'
        rw [hGr] at hGr'; cases hGr'
        refine ⟨fun h => absurd h hGl, fun _ => ?_⟩
        show (ns2.set g _)[g]? = _
        rw [List.getElem?_set_self hglt2]
      · intro j hjp hjS hjg
        have hjg' : j ≠ g := fun h => hjg (by rw [h])
        show (ns2.set g _)[j]? = _
        rw [List.getElem?_set_ne (Ne.symm hjg')]
        exact hns2other j hjp hjS

theorem fieldsNd_refl (a : FlatNode) : fieldsNd a a := ⟨rfl, rfl, rfl⟩

theorem fieldsNd_trans {a b c : FlatNode} (h1 : fieldsNd a b)
    (h2 : fieldsNd b c) : fieldsNd a c :=
  ⟨h1.1.trans h2.1, h1.2.1.trans h2.2.1, h1.2.2.trans h2.2.2⟩

/-- A list-level view of `FieldsEq`. -/
def fieldsL (nsA nsB : List FlatNode) : Prop :=
  nsA.length = nsB.length ∧
  ∀ (j : Nat) (ndA ndB : FlatNode),
    nsA[j]? = some ndA → nsB[j]? = some ndB → fieldsNd ndA ndB

theorem fieldsL_refl (ns : List FlatNode) : fieldsL ns ns := by
  refine ⟨rfl, fun j ndA ndB hA hB => ?_⟩
  rw [hA] at hB; cases hB; exact fieldsNd_refl _

theorem fieldsL_trans {a b c : List FlatNode} (h1 : fieldsL a b)
    (h2 : fieldsL b c) : fieldsL a c := by
  refine ⟨h1.1.trans h2.1, fun j ndA ndC hA hC => ?_⟩
  have hj : j < b.length := by
    rw [← h1.1]; exact getElem?_some_lt hA
  obtain ⟨ndB, hB⟩ : ∃ nd, b[j]? = some nd :=
    ⟨_, List.getElem?_eq_getElem hj⟩
  exact fieldsNd_trans (h1.2 j ndA ndB hA hB) (h2.2 j ndB ndC hB hC)

/-- A single `setF` whose update keeps name, branch length and depth
yields a fields-equal arena. -/
theorem setF_fieldsL {ns ns' : List FlatNode} {i : Nat}
    {f : FlatNode → FlatNode}
    (h : setF ns i f = some ns')
    (hf : ∀ nd, fieldsNd (f nd) nd) : fieldsL ns' ns := by
  obtain ⟨nd0, hget, hset⟩ : ∃ nd0, ns[i]? = some nd0 ∧ ns' = ns.set i (f nd0) := by
    unfold setF at h
    cases hg : ns[i]? with
    | none => rw [hg] at h; cases h
    | some nd0 =>
      rw [hg] at h
      cases h
      exact ⟨nd0, rfl, rfl⟩
  subst hset
  refine ⟨List.length_set .., fun j ndA ndB hA hB => ?_⟩
  by_cases hij : i = j
  · subst hij
    rw [List.getElem?_set_self (getElem?_some_lt hget)] at hA
    cases hA
    rw [hget] at hB; cases hB
    exact hf nd0
  · rw [List.getElem?_set_ne hij] at hA
    rw [hA] at hB; cases hB
    exact fieldsNd_refl _

/-- A successful splice changes no name, branch length or depth, keeps
the arena length, and keeps the stored `root` index (the root field is
only reassigned by the driver, after the whole removal pass). -/
theorem change_tree_fields {ft ft' : FlatTree} {i : Nat}
    (h : change_tree ft i = some ft') :
    FieldsEq ft' ft ∧ ft'.root = ft.root := by
  unfold change_tree at h
  rw [Option.bind_eq_some] at h
  obtain ⟨ndL, hL, h⟩ := h
  rw [Option.bind_eq_some] at h
  obtain ⟨p, hp, h⟩ := h
  rw [Option.bind_eq_some] at h
  obtain ⟨ndP, hP, h⟩ := h
  rw [Option.bind_eq_some] at h
  obtain ⟨lc, hlc, h⟩ := h
  rw [Option.bind_eq_some] at h
  obtain ⟨iS, hiS, h⟩ := h
  rw [Option.bind_eq_some] at h
  obtain ⟨ns1, hns1, h⟩ := h
  rw [Option.bind_eq_some] at h
  obtain ⟨ns2, hns2, h⟩ := h
  rw [Option.bind_eq_some] at h
  obtain ⟨ns3, hns3, h⟩ := h
  cases h
  have f1 : fieldsL ns1 ft.nodes :=
    setF_fieldsL hns1 (fun nd => ⟨rfl, rfl, rfl⟩)
  have f2 : fieldsL ns2 ns1 :=
    setF_fieldsL hns2 (fun nd => ⟨rfl, rfl, rfl⟩)
  have f3 : fieldsL ns3 ns2 := by
    cases hgp : ndP.parent with
    | none =>
      rw [hgp] at hns3
      cases hns3
      exact fieldsL_refl _
    | some g =>
      rw [hgp] at hns3
      rw [Option.bind_eq_some] at hns3
      obtain ⟨ndG, hndG, hns3⟩ := hns3
      by_cases hGl : ndG.left_child = some p
      · rw [if_pos hGl] at hns3
        exact setF_fieldsL hns3 (fun nd => ⟨rfl, rfl, rfl⟩)
      · rw [if_neg hGl] at hns3
        exact setF_fieldsL hns3 (fun nd => ⟨rfl, rfl, rfl⟩)
  exact ⟨fieldsL_trans (fieldsL_trans f3 f2) f1, rfl⟩

/-- The removal pass changes no name, branch length or depth, and never
touches the stored `root` index. -/
theorem remove_all_unsampled_fields {R : List Nat} :
    ∀ {ft ft' : FlatTree}, remove_all_unsampled ft R = some ft' →
    FieldsEq ft' ft ∧ ft'.root = ft.root := by
  induction R with
  | nil =>
    intro ft ft' h
    cases h
    exact ⟨⟨rfl, fun j ndA ndB hA hB => by
      rw [hA] at hB; cases hB; exact fieldsNd_refl _⟩, rfl⟩
  | cons a R ih =>
    intro ft ft' h
    unfold remove_all_unsampled at h
    rw [List.foldlM_cons, Option.bind_eq_bind, Option.bind_eq_some] at h
    obtain ⟨ft1, h1, h2⟩ := h
    obtain ⟨fa, ra⟩ := change_tree_fields h1
    obtain ⟨fb, rb⟩ := ih h2
    exact ⟨⟨fb.1.trans fa.1, (fieldsL_trans ⟨fb.1, fb.2⟩ ⟨fa.1, fa.2⟩).2⟩,
      rb.trans ra⟩

theorem STree.leafIdx_subset_idxList :
    ∀ t : STree, t.leafIdx ⊆ t.idxList := by
  intro t
  induction t with
  | leaf i => exact fun x hx => hx
  | node i l r ihl ihr =>
    intro x hx
    rcases List.mem_append.mp hx with h | h
    · exact List.mem_cons_of_mem _ (List.mem_append.mpr (Or.inl (ihl h)))
    · exact List.mem_cons_of_mem _ (List.mem_append.mpr (Or.inr (ihr h)))

theorem STree.idx_mem_idxList : ∀ t : STree, t.idx ∈ t.idxList
  | .leaf _ => List.mem_singleton.mpr rfl
  | .node _ _ _ => List.mem_cons_self ..

theorem STree.node_nodup {i : Nat} {l r : STree}
    (h : (STree.node i l r).idxList.Nodup) :
    i ∉ l.idxList ∧ i ∉ r.idxList ∧ l.idxList.Nodup ∧ r.idxList.Nodup ∧
    l.idxList.Disjoint r.idxList := by
  have h' := h
  rw [STree.idxList, List.nodup_cons, List.nodup_append] at h'
  refine ⟨fun hc => h'.1 (List.mem_append.mpr (Or.inl hc)),
    fun hc => h'.1 (List.mem_append.mpr (Or.inr hc)),
    h'.2.1, h'.2.2.1, h'.2.2.2⟩

/-- A leaf index that a subtree does not contain leaves the subtree
unchanged under `removeLeaf`. -/
theorem removeLeaf_of_not_mem :
    ∀ (t : STree) (a : Nat), a ∉ t.leafIdx → removeLeaf t a = t := by
  intro t
  induction t with
  | leaf i => intro a _; rfl
  | node i l r ihl ihr =>
    intro a ha
    have hal : a ∉ l.leafIdx := fun h =>
      ha (List.mem_append.mpr (Or.inl h))
    have har : a ∉ r.leafIdx := fun h =>
      ha (List.mem_append.mpr (Or.inr h))
    have hl : l ≠ .leaf a := by
      intro h; exact hal (h ▸ List.mem_singleton.mpr rfl)
    have hr : r ≠ .leaf a := by
      intro h; exact har (h ▸ List.mem_singleton.mpr rfl)
    rw [removeLeaf, if_neg hl, if_neg hr, ihl a hal, ihr a har]

theorem removeLeaf_idxList_sublist :
    ∀ (t : STree) (a : Nat), (removeLeaf t a).idxList.Sublist t.idxList := by
  intro t
  induction t with
  | leaf i => intro a; exact List.Sublist.refl _
  | node i l r ihl ihr =>
    intro a
    rw [removeLeaf]
    by_cases hl : l = .leaf a
    · rw [if_pos hl]
      refine List.Sublist.trans ?_ (List.sublist_cons_self ..)
      exact List.Sublist.trans (List.sublist_append_right ..)
        (List.Sublist.refl _)
    · rw [if_neg hl]
      by_cases hr : r = .leaf a
      · rw [if_pos hr]
        refine List.Sublist.trans ?_ (List.sublist_cons_self ..)
        exact List.sublist_append_left ..
      · rw [if_neg hr]
        exact List.Sublist.cons₂ _ (List.Sublist.append (ihl a) (ihr a))

theorem removeLeaf_leafIdx_sublist :
    ∀ (t : STree) (a : Nat), (removeLeaf t a).leafIdx.Sublist t.leafIdx := by
  intro t
  induction t with
  | leaf i => intro a; exact List.Sublist.refl _
  | node i l r ihl ihr =>
    intro a
    rw [removeLeaf]
    by_cases hl : l = .leaf a
    · rw [if_pos hl]
      exact List.sublist_append_right ..
    · rw [if_neg hl]
      by_cases hr : r = .leaf a
      · rw [if_pos hr]
        exact List.sublist_append_left ..
      · rw [if_neg hr]
        exact List.Sublist.append (ihl a) (ihr a)

/-- Removing one leaf keeps every other leaf a leaf. -/
theorem mem_leafIdx_removeLeaf :
    ∀ (t : STree) (a x : Nat), x ∈ t.leafIdx → x ≠ a →
      t.idxList.Nodup → x ∈ (removeLeaf t a).leafIdx := by
  intro t
  induction t with
  | leaf i =>
    intro a x hx _ _
    exact hx
  | node i l r ihl ihr =>
    intro a x hx hxa hnd
    obtain ⟨-, -, hndl, hndr, hdisj⟩ := STree.node_nodup hnd
    rw [removeLeaf]
    rcases List.mem_append.mp hx with hxl | hxr
    · by_cases hl : l = .leaf a
      · exfalso
        rw [hl] at hxl
        exact hxa (List.mem_singleton.mp hxl)
      · rw [if_neg hl]
        by_cases hr : r = .leaf a
        · rw [if_pos hr]
          exact hxl
        · rw [if_neg hr]
          exact List.mem_append.mpr (Or.inl (ihl a x hxl hxa hndl))
    · by_cases hl : l = .leaf a
      · rw [if_pos hl]
        exact hxr
      · rw [if_neg hl]
        by_cases hr : r = .leaf a
        · exfalso
          rw [hr] at hxr
          exact hxa (List.mem_singleton.mp hxr)
        · rw [if_neg hr]
          exact List.mem_append.mpr (Or.inr (ihr a x hxr hxa hndr))

/-- A tree with two distinct leaves is not a single leaf. -/
theorem not_leaf_of_two_leaves {t : STree} {x y : Nat}
    (hx : x ∈ t.leafIdx) (hy : y ∈ t.leafIdx) (hxy : x ≠ y) :
    ∀ b, t ≠ .leaf b := by
  intro b hb
  subst hb
  exact hxy ((List.mem_singleton.mp hx).trans
    (List.mem_singleton.mp hy).symm)

/-- Records reachable from `t` exist. -/
theorem reprAt_record {ft : FlatTree} :
    ∀ {t : STree}, ReprAt ft t → ∃ nd, ft.nodes[t.idx]? = some nd := by
  intro t h
  cases t with
  | leaf i =>
    obtain ⟨nd, hnd, -, -⟩ := h
    exact ⟨nd, hnd⟩
  | node i l r =>
    obtain ⟨⟨nd, hnd, -, -⟩, -⟩ := h
    exact ⟨nd, hnd⟩

/-- `ReprAt` only looks at records with indices in `idxList`. -/
theorem reprAt_ext {ftA ftB : FlatTree} :
    ∀ t : STree, (∀ j, j ∈ t.idxList → ftA.nodes[j]? = ftB.nodes[j]?) →
    ReprAt ftB t → ReprAt ftA t := by
  intro t
  induction t with
  | leaf i =>
    intro hext h
    obtain ⟨nd, hnd, h1, h2⟩ := h
    exact ⟨nd, (hext i (STree.idx_mem_idxList (.leaf i))).trans hnd, h1, h2⟩
  | node i l r ihl ihr =>
    intro hext h
    obtain ⟨⟨nd, hnd, h1, h2⟩, ⟨ndl, hndl, h3⟩, ⟨ndr, hndr, h4⟩, hbl, hbr⟩ := h
    have hmeml : ∀ j, j ∈ l.idxList → j ∈ (STree.node i l r).idxList :=
      fun j hj => List.mem_cons_of_mem _ (List.mem_append.mpr (Or.inl hj))
    have hmemr : ∀ j, j ∈ r.idxList → j ∈ (STree.node i l r).idxList :=
      fun j hj => List.mem_cons_of_mem _ (List.mem_append.mpr (Or.inr hj))
    refine ⟨⟨nd, (hext i (List.mem_cons_self ..)).trans hnd, h1, h2⟩,
      ⟨ndl, (hext l.idx (hmeml _ (STree.idx_mem_idxList l))).trans hndl, h3⟩,
      ⟨ndr, (hext r.idx (hmemr _ (STree.idx_mem_idxList r))).trans hndr, h4⟩,
      ihl (fun j hj => hext j (hmeml j hj)) hbl,
      ihr (fun j hj => hext j (hmemr j hj)) hbr⟩

/-- `ReprAt` tolerates a change of the parent field of the subtree's own
root (the parent link of the root of a subtree is constrained one level
up, not inside the subtree). -/
theorem reprAt_root_parent_change {ftA ftB : FlatTree} (t : STree)
    (hnd : t.idxList.Nodup)
    (hext : ∀ j, j ∈ t.idxList → j ≠ t.idx →
      ftA.nodes[j]? = ftB.nodes[j]?)
    (hroot : ∃ ndA ndB, ftA.nodes[t.idx]? = some ndA ∧
      ftB.nodes[t.idx]? = some ndB ∧
      ndA.left_child = ndB.left_child ∧
      ndA.right_child = ndB.right_child)
    (h : ReprAt ftB t) : ReprAt ftA t := by
  cases t with
  | leaf i =>
    obtain ⟨nd, hnd', h1, h2⟩ := h
    obtain ⟨ndA, ndB, hA, hB, hlc, hrc⟩ := hroot
    simp only [STree.idx] at hA hB
    rw [hnd'] at hB
    cases hB
    exact ⟨ndA, hA, hlc.trans h1, hrc.trans h2⟩
  | node i l r =>
    obtain ⟨hi, hir, hdl, hdr, hdisj⟩ := STree.node_nodup hnd
    obtain ⟨⟨nd, hnd', h1, h2⟩, ⟨ndl, hndl, h3⟩, ⟨ndr, hndr, h4⟩,
      hbl, hbr⟩ := h
    obtain ⟨ndA, ndB, hA, hB, hlc, hrc⟩ := hroot
    simp only [STree.idx] at hA hB
    rw [hnd'] at hB
    cases hB
    have hmeml : ∀ j, j ∈ l.idxList → j ∈ (STree.node i l r).idxList :=
      fun j hj => List.mem_cons_of_mem _ (List.mem_append.mpr (Or.inl hj))
    have hmemr : ∀ j, j ∈ r.idxList → j ∈ (STree.node i l r).idxList :=
      fun j hj => List.mem_cons_of_mem _ (List.mem_append.mpr (Or.inr hj))
    have hextl : ∀ j, j ∈ l.idxList → ftA.nodes[j]? = ftB.nodes[j]? := by
      intro j hj
      refine hext j (hmeml j hj) (fun he => hi ?_)
      simp only [STree.idx] at he
      exact he ▸ hj
    have hextr : ∀ j, j ∈ r.idxList → ftA.nodes[j]? = ftB.nodes[j]? := by
      intro j hj
      refine hext j (hmemr j hj) (fun he => hir ?_)
      simp only [STree.idx] at he
      exact he ▸ hj
    refine ⟨⟨ndA, hA, hlc.trans h1, hrc.trans h2⟩,
      ⟨ndl, (hextl l.idx (STree.idx_mem_idxList l)).trans hndl, h3⟩,
      ⟨ndr, (hextr r.idx (STree.idx_mem_idxList r)).trans hndr, h4⟩,
      reprAt_ext l hextl hbl, reprAt_ext r hextr hbr⟩

/-- One splice, seen through the representation: removing leaf `a` from a
represented subtree performs exactly the abstract `removeLeaf`, touching
no record outside the subtree except the context parent `gOpt`, whose
child slot for the subtree is redirected to the new subtree root. -/
theorem splice_sim (a : Nat) :
    ∀ (t : STree) (ft : FlatTree) (gOpt : Option Nat),
    ReprAt ft t → t.idxList.Nodup → a ∈ t.leafIdx →
    (∀ b, t ≠ STree.leaf b) →
    (∃ nd, ft.nodes[t.idx]? = some nd ∧ nd.parent = gOpt) →
    (∀ g, gOpt = some g → g ∉ t.idxList ∧
      ∃ ndG, ft.nodes[g]? = some ndG ∧
        (ndG.left_child = some t.idx ∨ ndG.right_child = some t.idx)) →
    ∃ ft', change_tree ft a = some ft' ∧
      ReprAt ft' (removeLeaf t a) ∧
      (∃ nd', ft'.nodes[(removeLeaf t a).idx]? = some nd' ∧
        nd'.parent = gOpt) ∧
      (∀ j, j ∉ t.idxList → gOpt ≠ some j →
        ft'.nodes[j]? = ft.nodes[j]?) ∧
      (∀ g ndG, gOpt = some g → ft.nodes[g]? = some ndG →
        ∃ ndG', ft'.nodes[g]? = some ndG' ∧ ndG'.parent = ndG.parent ∧
          ((ndG.left_child = some t.idx →
            ndG'.left_child = some (removeLeaf t a).idx ∧
            ndG'.right_child = ndG.right_child) ∧
           (ndG.left_child ≠ some t.idx →
            ndG'.left_child = ndG.left_child ∧
            ndG'.right_child = some (removeLeaf t a).idx))) := by
  intro t
  induction t with
  | leaf b =>
    intro ft gOpt _ _ _ hnl _ _
    exact absurd rfl (hnl b)
  | node i l r ihl ihr =>
    intro ft gOpt hrep hnd ha hnl h5 h6
    obtain ⟨hi, hir, hdl, hdr, hdisj⟩ := STree.node_nodup hnd
    obtain ⟨⟨ndP, hPi, hPl, hPr⟩, ⟨ndl, hndl, hlpar⟩,
      ⟨ndr, hndr, hrpar⟩, hRl, hRr⟩ := hrep
    simp only [STree.idx] at h5
    obtain ⟨nd5, hnd5, hnd5par⟩ := h5
    rw [hPi] at hnd5
    cases hnd5
    -- now hnd5par : ndP.parent = gOpt
    have hmeml : ∀ j, j ∈ l.idxList → j ∈ (STree.node i l r).idxList :=
      fun j hj => List.mem_cons_of_mem _ (List.mem_append.mpr (Or.inl hj))
    have hmemr : ∀ j, j ∈ r.idxList → j ∈ (STree.node i l r).idxList :=
      fun j hj => List.mem_cons_of_mem _ (List.mem_append.mpr (Or.inr hj))
    have hgnot : ∀ j, j ∈ (STree.node i l r).idxList → gOpt ≠ some j :=
      fun j hj he => (h6 j he).1 hj
    rcases List.mem_append.mp ha with hal | har
    · -- the removed leaf sits in the left subtree
      by_cases hl : l = STree.leaf a
      · -- base case: the left child is exactly the removed leaf
        subst hl
        simp only [STree.idx] at hndl hPl
        have hrem : removeLeaf (STree.node i (STree.leaf a) r) a = r := by
          rw [removeLeaf, if_pos rfl]
        have hSpne : r.idx ≠ i := fun he => hir (he ▸ STree.idx_mem_idxList r)
        have hG : ∀ g, ndP.parent = some g →
            g ≠ i ∧ g ≠ r.idx ∧ ∃ ndG, ft.nodes[g]? = some ndG := by
          intro g hg
          rw [hnd5par] at hg
          obtain ⟨hgn, ndG, hGr, -⟩ := h6 g hg
          exact ⟨fun he => hgn (he ▸ List.mem_cons_self ..),
            fun he => hgn (he ▸ hmemr _ (STree.idx_mem_idxList r)),
            ⟨ndG, hGr⟩⟩
        obtain ⟨ft', hct, hroot', hlen, hP', hS', hGcl, hfr⟩ :=
          change_tree_spec ft a i r.idx ndl ndP ndr hndl hlpar hPi
            (Or.inl ⟨hPl, hPr⟩) hndr hSpne hG
        have huntouched : ∀ j, j ≠ i → j ≠ r.idx →
            gOpt ≠ some j → ft'.nodes[j]? = ft.nodes[j]? := by
          intro j hji hjr hgj
          exact hfr j hji hjr (fun he => hgj (hnd5par ▸ he))
        rw [hrem]
        refine ⟨ft', hct, ?_, ?_, ?_, ?_⟩
        · -- ReprAt ft' r
          refine reprAt_root_parent_change r hdr ?_ ?_ hRr
          · intro j hj hjr
            exact huntouched j
              (fun he => hir (he ▸ hj)) hjr
              (hgnot j (hmemr j hj))
          · exact ⟨_, ndr, hS', hndr, rfl, rfl⟩
        · exact ⟨_, hS', hnd5par⟩
        · intro j hj hgj
          refine huntouched j (fun he => hj (he ▸ List.mem_cons_self ..))
            (fun he => hj (he ▸ hmemr _ (STree.idx_mem_idxList r))) hgj
        · intro g ndG hg hGr
          have hgP : ndP.parent = some g := hnd5par.trans hg
          obtain ⟨hthen, helse⟩ := hGcl g ndG hgP hGr
          simp only [STree.idx]
          by_cases hc : ndG.left_child = some i
          · exact ⟨_, hthen hc, rfl,
              fun _ => ⟨rfl, rfl⟩, fun hcc => absurd hc hcc⟩
          · exact ⟨_, helse hc, rfl,
              fun hcc => absurd hcc hc, fun _ => ⟨rfl, rfl⟩⟩
      · -- recursive case: the leaf is deeper in the left subtree
        have hlnode : ∀ b, l ≠ STree.leaf b := by
          intro b hb
          apply hl
          subst hb
          simp only [STree.leafIdx] at hal
          exact (congrArg STree.leaf (List.mem_singleton.mp hal)).symm
        have hanr : a ∉ r.leafIdx := by
          intro hcontra
          exact hdisj (STree.leafIdx_subset_idxList l hal)
            (STree.leafIdx_subset_idxList r hcontra)
        have hrne : r ≠ STree.leaf a := by
          intro hb
          exact hanr (hb ▸ List.mem_singleton.mpr rfl)
        have hrem : removeLeaf (STree.node i l r) a
            = STree.node i (removeLeaf l a) r := by
          rw [removeLeaf, if_neg hl, if_neg hrne, removeLeaf_of_not_mem r a hanr]
        have h6l : ∀ g, (some i : Option Nat) = some g → g ∉ l.idxList ∧
            ∃ ndG, ft.nodes[g]? = some ndG ∧
              (ndG.left_child = some l.idx ∨ ndG.right_child = some l.idx) := by
          intro g hg
          cases hg
          exact ⟨hi, ndP, hPi, Or.inl hPl⟩
        obtain ⟨ft', hct, hRep', hroot', hfr', hGcl'⟩ :=
          ihl ft (some i) hRl hdl hal hlnode ⟨ndl, hndl, hlpar⟩ h6l
        have hinotr : ∀ j, j ∈ r.idxList → (some i : Option Nat) ≠ some j := by
          intro j hj he
          cases he
          exact hir hj
        have hfrR : ∀ j, j ∈ r.idxList → ft'.nodes[j]? = ft.nodes[j]? := by
          intro j hj
          exact hfr' j (fun hc => hdisj hc hj) (hinotr j hj)
        obtain ⟨ndG', hG'i, hG'par, hG'then, -⟩ := hGcl' i ndP rfl hPi
        obtain ⟨hG'l, hG'r⟩ := hG'then hPl
        rw [hrem]
        refine ⟨ft', hct, ?_, ?_, ?_, ?_⟩
        · -- ReprAt for the rebuilt node
          refine ⟨⟨ndG', hG'i, hG'l, hG'r.trans hPr⟩, hroot', ?_, hRep', ?_⟩
          · refine ⟨ndr, ?_, hrpar⟩
            rw [hfrR r.idx (STree.idx_mem_idxList r)]
            exact hndr
          · exact reprAt_ext r hfrR hRr
        · exact ⟨ndG', hG'i, hG'par.trans hnd5par⟩
        · intro j hj hgj
          refine hfr' j (fun hc => hj (hmeml j hc)) ?_
          intro he
          cases he
          exact hj (List.mem_cons_self ..)
        · intro g ndG hg hGr
          have hgn := (h6 g hg).1
          have hgfr : ft'.nodes[g]? = some ndG := by
            rw [hfr' g (fun hc => hgn (hmeml g hc))
              (fun he => by cases he; exact hgn (List.mem_cons_self ..))]
            exact hGr
          obtain ⟨-, ndG2, hGr2, hdisj2⟩ := h6 g hg
          rw [hGr] at hGr2
          cases hGr2
          simp only [STree.idx] at hdisj2 ⊢
          refine ⟨ndG, hgfr, rfl, fun hc => ⟨hc, rfl⟩, fun hc => ⟨rfl, ?_⟩⟩
          rcases hdisj2 with h | h
          · exact absurd h hc
          · exact h
    · -- the removed leaf sits in the right subtree
      by_cases hr : r = STree.leaf a
      · -- base case: the right child is exactly the removed leaf
        subst hr
        simp only [STree.idx] at hndr hPr
        have hanl : a ∉ l.idxList := by
          intro hcontra
          exact hdisj hcontra (List.mem_singleton.mpr rfl)
        have hrem : removeLeaf (STree.node i l (STree.leaf a)) a = l := by
          have hlne : l ≠ STree.leaf a := by
            intro hb
            exact hanl (hb ▸ List.mem_singleton.mpr rfl)
          rw [removeLeaf, if_neg hlne, if_pos rfl]
        have hSpne : l.idx ≠ i := fun he => hi (he ▸ STree.idx_mem_idxList l)
        have hlidxa : l.idx ≠ a := fun he => hanl (he ▸ STree.idx_mem_idxList l)
        have hG : ∀ g, ndP.parent = some g →
            g ≠ i ∧ g ≠ l.idx ∧ ∃ ndG, ft.nodes[g]? = some ndG := by
          intro g hg
          rw [hnd5par] at hg
          obtain ⟨hgn, ndG, hGr, -⟩ := h6 g hg
          exact ⟨fun he => hgn (he ▸ List.mem_cons_self ..),
            fun he => hgn (he ▸ hmeml _ (STree.idx_mem_idxList l)),
            ⟨ndG, hGr⟩⟩
        obtain ⟨ft', hct, hroot', hlen, hP', hS', hGcl, hfr⟩ :=
          change_tree_spec ft a i l.idx ndr ndP ndl hndr hrpar hPi
            (Or.inr ⟨hPl, hlidxa⟩) hndl hSpne hG
        have huntouched : ∀ j, j ≠ i → j ≠ l.idx →
            gOpt ≠ some j → ft'.nodes[j]? = ft.nodes[j]? := by
          intro j hji hjl hgj
          exact hfr j hji hjl (fun he => hgj (hnd5par ▸ he))
        rw [hrem]
        refine ⟨ft', hct, ?_, ?_, ?_, ?_⟩
        · refine reprAt_root_parent_change l hdl ?_ ?_ hRl
          · intro j hj hjl
            exact huntouched j
              (fun he => hi (he ▸ hj)) hjl
              (hgnot j (hmeml j hj))
          · exact ⟨_, ndl, hS', hndl, rfl, rfl⟩
        · exact ⟨_, hS', hnd5par⟩
        · intro j hj hgj
          refine huntouched j (fun he => hj (he ▸ List.mem_cons_self ..))
            (fun he => hj (he ▸ hmeml _ (STree.idx_mem_idxList l))) hgj
        · intro g ndG hg hGr
          have hgP : ndP.parent = some g := hnd5par.trans hg
          obtain ⟨hthen, helse⟩ := hGcl g ndG hgP hGr
          simp only [STree.idx]
          by_cases hc : ndG.left_child = some i
          · exact ⟨_, hthen hc, rfl,
              fun _ => ⟨rfl, rfl⟩, fun hcc => absurd hc hcc⟩
          · exact ⟨_, helse hc, rfl,
              fun hcc => absurd hcc hc, fun _ => ⟨rfl, rfl⟩⟩
      · -- recursive case: the leaf is deeper in the right subtree
        have hrnode : ∀ b, r ≠ STree.leaf b := by
          intro b hb
          apply hr
          subst hb
          simp only [STree.leafIdx] at har
          exact (congrArg STree.leaf (List.mem_singleton.mp har)).symm
        have hanl : a ∉ l.leafIdx := by
          intro hcontra
          exact hdisj (STree.leafIdx_subset_idxList l hcontra)
            (STree.leafIdx_subset_idxList r har)
        have hlne : l ≠ STree.leaf a := by
          intro hb
          exact hanl (hb ▸ List.mem_singleton.mpr rfl)
        have hrem : removeLeaf (STree.node i l r) a
            = STree.node i l (removeLeaf r a) := by
          rw [removeLeaf, if_neg hlne, if_neg hr, removeLeaf_of_not_mem l a hanl]
        have h6r : ∀ g, (some i : Option Nat) = some g → g ∉ r.idxList ∧
            ∃ ndG, ft.nodes[g]? = some ndG ∧
              (ndG.left_child = some r.idx ∨ ndG.right_child = some r.idx) := by
          intro g hg
          cases hg
          exact ⟨hir, ndP, hPi, Or.inr hPr⟩
        obtain ⟨ft', hct, hRep', hroot', hfr', hGcl'⟩ :=
          ihr ft (some i) hRr hdr har hrnode ⟨ndr, hndr, hrpar⟩ h6r
        have hfrL : ∀ j, j ∈ l.idxList → ft'.nodes[j]? = ft.nodes[j]? := by
          intro j hj
          refine hfr' j (fun hc => hdisj hj hc) ?_
          intro he
          cases he
          exact hi hj
        have hlidxr : ndP.left_child ≠ some r.idx := by
          rw [hPl]
          intro he
          have he' : l.idx = r.idx := Option.some.inj he
          refine hdisj (STree.idx_mem_idxList l) ?_
          rw [he']
          exact STree.idx_mem_idxList r
        obtain ⟨ndG', hG'i, hG'par, -, hG'else⟩ := hGcl' i ndP rfl hPi
        obtain ⟨hG'l, hG'r⟩ := hG'else hlidxr
        rw [hrem]
        refine ⟨ft', hct, ?_, ?_, ?_, ?_⟩
        · refine ⟨⟨ndG', hG'i, hG'l.trans hPl, hG'r⟩, ?_, hroot', ?_, hRep'⟩
          · refine ⟨ndl, ?_, hlpar⟩
            rw [hfrL l.idx (STree.idx_mem_idxList l)]
            exact hndl
          · exact reprAt_ext l hfrL hRl
        · exact ⟨ndG', hG'i, hG'par.trans hnd5par⟩
        · intro j hj hgj
          refine hfr' j (fun hc => hj (hmemr j hc)) ?_
          intro he
          cases he
          exact hj (List.mem_cons_self ..)
        · intro g ndG hg hGr
          have hgn := (h6 g hg).1
          have hgfr : ft'.nodes[g]? = some ndG := by
            rw [hfr' g (fun hc => hgn (hmemr g hc))
              (fun he => by cases he; exact hgn (List.mem_cons_self ..))]
            exact hGr
          obtain ⟨-, ndG2, hGr2, hdisj2⟩ := h6 g hg
          rw [hGr] at hGr2
          cases hGr2
          simp only [STree.idx] at hdisj2 ⊢
          refine ⟨ndG, hgfr, rfl, fun hc => ⟨hc, rfl⟩, fun hc => ⟨rfl, ?_⟩⟩
          rcases hdisj2 with h | h
          · exact absurd h hc
          · exact h

/-- Top-level step: one splice on a represented tree (removing a leaf
that is not the whole tree) succeeds and represents the abstract
removal. -/
theorem splice_step {ft : FlatTree} {t : STree} {a : Nat}
    (hrep : Represents ft t) (ha : a ∈ t.leafIdx)
    (hnl : ∀ b, t ≠ STree.leaf b) :
    ∃ ft', change_tree ft a = some ft' ∧
      Represents ft' (removeLeaf t a) := by
  obtain ⟨hnd, hroot, hAt⟩ := hrep
  obtain ⟨ft', hct, hAt', hroot', -, -⟩ :=
    splice_sim a t ft none hAt hnd ha hnl hroot (by intro g hg; cases hg)
  refine ⟨ft', hct, ?_, ?_, hAt'⟩
  · exact (removeLeaf_idxList_sublist t a).nodup hnd
  · exact hroot'

/-- The whole removal pass, abstractly: it folds `removeLeaf` over the
removal list. -/
theorem splice_fold :
    ∀ (R : List Nat) (ft : FlatTree) (t : STree) (k : Nat),
    Represents ft t → R.Nodup → (∀ x, x ∈ R → x ∈ t.leafIdx) →
    k ∈ t.leafIdx → k ∉ R →
    ∃ ft', remove_all_unsampled ft R = some ft' ∧
      Represents ft' (R.foldl removeLeaf t) := by
  intro R
  induction R with
  | nil =>
    intro ft t k hrep _ _ _ _
    exact ⟨ft, rfl, hrep⟩
  | cons a R ih =>
    intro ft t k hrep hnd hmem hk hkR
    have hka : k ≠ a := fun he => hkR (he ▸ List.mem_cons_self ..)
    have hnl : ∀ b, t ≠ STree.leaf b :=
      not_leaf_of_two_leaves hk (hmem a (List.mem_cons_self ..)) hka
    obtain ⟨ft1, hct, hrep1⟩ :=
      splice_step hrep (hmem a (List.mem_cons_self ..)) hnl
    have hndt : t.idxList.Nodup := hrep.1
    have hndR : R.Nodup := (List.nodup_cons.mp hnd).2
    have haR : a ∉ R := (List.nodup_cons.mp hnd).1
    obtain ⟨ft', hpass, hrep'⟩ :=
      ih ft1 (removeLeaf t a) k hrep1 hndR
        (fun x hx => mem_leafIdx_removeLeaf t a x (hmem x (List.mem_cons_of_mem _ hx))
          (fun he => haR (he ▸ hx)) hndt)
        (mem_leafIdx_removeLeaf t a k hk hka hndt)
        (fun hc => hkR (List.mem_cons_of_mem _ hc))
    refine ⟨ft', ?_, hrep'⟩
    unfold remove_all_unsampled at hpass ⊢
    rw [List.foldlM_cons, Option.bind_eq_bind, hct, Option.some_bind]
    exact hpass

/-- Leaves survive a whole removal pass they are not part of. -/
theorem mem_leafIdx_foldl :
    ∀ (R : List Nat) (t : STree) (k : Nat), t.idxList.Nodup →
      k ∈ t.leafIdx → k ∉ R → k ∈ (R.foldl removeLeaf t).leafIdx := by
  intro R
  induction R with
  | nil => intro t k _ hk _; exact hk
  | cons a R ih =>
    intro t k hnd hk hkR
    have hka : k ≠ a := fun he => hkR (he ▸ List.mem_cons_self ..)
    exact ih (removeLeaf t a) k
      ((removeLeaf_idxList_sublist t a).nodup hnd)
      (mem_leafIdx_removeLeaf t a k hk hka hnd)
      (fun hc => hkR (List.mem_cons_of_mem _ hc))

/-- A kept leaf witnesses a positive keep count. -/
theorem countKeep_pos {R : List Nat} :
    ∀ {t : STree} {k : Nat}, k ∈ t.leafIdx → k ∉ R → 0 < countKeep R t := by
  intro t
  induction t with
  | leaf i =>
    intro k hk hkR
    have : k = i := List.mem_singleton.mp hk
    subst this
    rw [countKeep, if_neg hkR]
    exact Nat.zero_lt_one
  | node i l r ihl ihr =>
    intro k hk hkR
    rw [countKeep]
    rcases List.mem_append.mp hk with h | h
    · exact Nat.add_pos_left (ihl h hkR) _
    · exact Nat.add_pos_right _ (ihr h hkR)

/-- The keep count only depends on membership of leaves in the list. -/
theorem countKeep_congr {R1 R2 : List Nat} :
    ∀ {t : STree}, (∀ x, x ∈ t.leafIdx → (x ∈ R1 ↔ x ∈ R2)) →
      countKeep R1 t = countKeep R2 t := by
  intro t
  induction t with
  | leaf i =>
    intro h
    rw [countKeep, countKeep]
    by_cases hi : i ∈ R1
    · rw [if_pos hi, if_pos ((h i (List.mem_singleton.mpr rfl)).mp hi)]
    · rw [if_neg hi, if_neg (fun hc => hi ((h i (List.mem_singleton.mpr rfl)).mpr hc))]
  | node i l r ihl ihr =>
    intro h
    rw [countKeep, countKeep,
      ihl (fun x hx => h x (List.mem_append.mpr (Or.inl hx))),
      ihr (fun x hx => h x (List.mem_append.mpr (Or.inr hx)))]

/-- The pruned tree only depends on membership of leaves in the list. -/
theorem keepPrune_congr {R1 R2 : List Nat} :
    ∀ {t : STree}, (∀ x, x ∈ t.leafIdx → (x ∈ R1 ↔ x ∈ R2)) →
      keepPrune R1 t = keepPrune R2 t := by
  intro t
  induction t with
  | leaf i => intro _; rfl
  | node i l r ihl ihr =>
    intro h
    have hl := fun x hx => h x (List.mem_append.mpr (Or.inl hx))
    have hr := fun x hx => h x (List.mem_append.mpr (Or.inr hx))
    rw [keepPrune, keepPrune, countKeep_congr hl, countKeep_congr hr,
      ihl hl, ihr hr]

/-- Removing a leaf scheduled for removal does not change the keep
count. -/
theorem countKeep_removeLeaf {R : List Nat} {a : Nat} :
    ∀ {t : STree}, a ∈ t.leafIdx → t.idxList.Nodup → t ≠ STree.leaf a →
      countKeep R (removeLeaf t a) = countKeep (a :: R) t := by
  intro t
  induction t with
  | leaf i =>
    intro ha _ hne
    exact absurd (congrArg STree.leaf (List.mem_singleton.mp ha).symm) hne
  | node i l r ihl ihr =>
    intro ha hnd _
    obtain ⟨hi, hir, hdl, hdr, hdisj⟩ := STree.node_nodup hnd
    rcases List.mem_append.mp ha with hal | har
    · have hanr : ∀ x, x ∈ r.leafIdx → x ≠ a := by
        intro x hx he
        subst he
        exact hdisj (STree.leafIdx_subset_idxList l hal)
          (STree.leafIdx_subset_idxList r hx)
      have hcr : countKeep (a :: R) r = countKeep R r :=
        countKeep_congr (fun x hx =>
          ⟨fun hm => (List.mem_cons.mp hm).elim
            (fun he => absurd he (hanr x hx)) id,
           fun hm => List.mem_cons_of_mem _ hm⟩)
      by_cases hl : l = STree.leaf a
      · subst hl
        rw [removeLeaf, if_pos rfl, countKeep, countKeep, if_pos
          (List.mem_cons_self ..), hcr, Nat.zero_add]
      · have hrne : r ≠ STree.leaf a := by
          intro hb
          exact hanr a (hb ▸ List.mem_singleton.mpr rfl) rfl
        have hanr' : a ∉ r.leafIdx := fun hc => hanr a hc rfl
        rw [removeLeaf, if_neg hl, if_neg hrne,
          removeLeaf_of_not_mem r a hanr', countKeep, countKeep,
          ihl hal hdl hl, hcr]
    · have hanl : ∀ x, x ∈ l.leafIdx → x ≠ a := by
        intro x hx he
        subst he
        exact hdisj (STree.leafIdx_subset_idxList l hx)
          (STree.leafIdx_subset_idxList r har)
      have hcl : countKeep (a :: R) l = countKeep R l :=
        countKeep_congr (fun x hx =>
          ⟨fun hm => (List.mem_cons.mp hm).elim
            (fun he => absurd he (hanl x hx)) id,
           fun hm => List.mem_cons_of_mem _ hm⟩)
      have hlne : l ≠ STree.leaf a := by
        intro hb
        exact hanl a (hb ▸ List.mem_singleton.mpr rfl) rfl
      by_cases hr : r = STree.leaf a
      · subst hr
        rw [removeLeaf, if_neg hlne, if_pos rfl, countKeep, countKeep,
          if_pos (List.mem_cons_self ..), hcl, Nat.add_zero]
      · have hanl' : a ∉ l.leafIdx := fun hc => hanl a hc rfl
        rw [removeLeaf, if_neg hlne, if_neg hr,
          removeLeaf_of_not_mem l a hanl', countKeep, countKeep,
          ihr har hdr hr, hcl]

/-- Pruning after a scheduled removal equals pruning with the removed
leaf added to the removal list — the key step making the removal pass
order-free. -/
theorem keepPrune_removeLeaf {R : List Nat} {a : Nat} :
    ∀ {t : STree}, t.idxList.Nodup → a ∈ t.leafIdx →
      0 < countKeep (a :: R) t →
      keepPrune R (removeLeaf t a) = keepPrune (a :: R) t := by
  intro t
  induction t with
  | leaf i =>
    intro _ ha hpos
    have hai : a = i := List.mem_singleton.mp ha
    subst hai
    rw [countKeep, if_pos (List.mem_cons_self ..)] at hpos
    exact absurd hpos (Nat.lt_irrefl 0)
  | node i l r ihl ihr =>
    intro hnd ha hpos
    obtain ⟨hi, hir, hdl, hdr, hdisj⟩ := STree.node_nodup hnd
    rcases List.mem_append.mp ha with hal | har
    · have hanr : ∀ x, x ∈ r.leafIdx → x ≠ a := by
        intro x hx he
        subst he
        exact hdisj (STree.leafIdx_subset_idxList l hal)
          (STree.leafIdx_subset_idxList r hx)
      have hmemr : ∀ x, x ∈ r.leafIdx → (x ∈ R ↔ x ∈ a :: R) :=
        fun x hx => ⟨fun hm => List.mem_cons_of_mem _ hm,
          fun hm => (List.mem_cons.mp hm).elim
            (fun he => absurd he (hanr x hx)) id⟩
      have hcrK : keepPrune R r = keepPrune (a :: R) r :=
        keepPrune_congr hmemr
      have hcrC : countKeep R r = countKeep (a :: R) r :=
        countKeep_congr hmemr
      by_cases hl : l = STree.leaf a
      · subst hl
        have h0 : countKeep (a :: R) (STree.leaf a) = 0 := by
          rw [countKeep, if_pos (List.mem_cons_self ..)]
        rw [removeLeaf, if_pos rfl, keepPrune, if_pos h0]
        exact hcrK
      · have hrne : r ≠ STree.leaf a := by
          intro hb
          exact hanr a (hb ▸ List.mem_singleton.mpr rfl) rfl
        have hanr' : a ∉ r.leafIdx := fun hc => hanr a hc rfl
        have hCl : countKeep R (removeLeaf l a) = countKeep (a :: R) l :=
          countKeep_removeLeaf hal hdl hl
        rw [removeLeaf, if_neg hl, if_neg hrne,
          removeLeaf_of_not_mem r a hanr', keepPrune, keepPrune, hCl,
          ← hcrC]
        by_cases c1 : countKeep (a :: R) l = 0
        · rw [if_pos c1, if_pos c1]
          exact hcrK
        · rw [if_neg c1, if_neg c1]
          have hIH : keepPrune R (removeLeaf l a) = keepPrune (a :: R) l :=
            ihl hdl hal (Nat.pos_of_ne_zero c1)
          by_cases c2 : countKeep R r = 0
          · rw [if_pos c2, if_pos c2]
            exact hIH
          · rw [if_neg c2, if_neg c2, hIH, hcrK]
    · have hanl : ∀ x, x ∈ l.leafIdx → x ≠ a := by
        intro x hx he
        subst he
        exact hdisj (STree.leafIdx_subset_idxList l hx)
          (STree.leafIdx_subset_idxList r har)
      have hmeml : ∀ x, x ∈ l.leafIdx → (x ∈ R ↔ x ∈ a :: R) :=
        fun x hx => ⟨fun hm => List.mem_cons_of_mem _ hm,
          fun hm => (List.mem_cons.mp hm).elim
            (fun he => absurd he (hanl x hx)) id⟩
      have hclK : keepPrune R l = keepPrune (a :: R) l :=
        keepPrune_congr hmeml
      have hclC : countKeep R l = countKeep (a :: R) l :=
        countKeep_congr hmeml
      have hlne : l ≠ STree.leaf a := by
        intro hb
        exact hanl a (hb ▸ List.mem_singleton.mpr rfl) rfl
      have hanl' : a ∉ l.leafIdx := fun hc => hanl a hc rfl
      by_cases hr : r = STree.leaf a
      · subst hr
        have h0 : countKeep (a :: R) (STree.leaf a) = 0 := by
          rw [countKeep, if_pos (List.mem_cons_self ..)]
        rw [removeLeaf, if_neg hlne, if_pos rfl, keepPrune]
        by_cases c1 : countKeep (a :: R) l = 0
        · exfalso
          rw [countKeep, c1, h0] at hpos
          exact Nat.lt_irrefl 0 hpos
        · rw [if_neg c1, if_pos h0]
          exact hclK
      · have hCr : countKeep R (removeLeaf r a) = countKeep (a :: R) r :=
          countKeep_removeLeaf har hdr hr
        rw [removeLeaf, if_neg hlne, if_neg hr,
          removeLeaf_of_not_mem l a hanl', keepPrune, keepPrune, hCr,
          ← hclC]
        by_cases c1 : countKeep R l = 0
        · rw [if_pos c1, if_pos c1]
          have hposr : 0 < countKeep (a :: R) r := by
            rw [countKeep, ← hclC, c1, Nat.zero_add] at hpos
            exact hpos
          exact ihr hdr har hposr
        · rw [if_neg c1, if_neg c1]
          by_cases c2 : countKeep (a :: R) r = 0
          · rw [if_pos c2, if_pos c2]
            exact hclK
          · rw [if_neg c2, if_neg c2, hclK,
              ihr hdr har (Nat.pos_of_ne_zero c2)]

theorem countKeep_nil_pos : ∀ t : STree, 0 < countKeep [] t := by
  intro t
  induction t with
  | leaf i =>
    rw [countKeep, if_neg (List.not_mem_nil i)]
    exact Nat.zero_lt_one
  | node i l r ihl ihr =>
    rw [countKeep]
    exact Nat.add_pos_left ihl _

theorem keepPrune_nil : ∀ t : STree, keepPrune [] t = t := by
  intro t
  induction t with
  | leaf i => rfl
  | node i l r ihl ihr =>
    rw [keepPrune, if_neg (Nat.pos_iff_ne_zero.mp (countKeep_nil_pos l)),
      if_neg (Nat.pos_iff_ne_zero.mp (countKeep_nil_pos r)), ihl, ihr]

/-- The removal fold computes the one-pass prune, and therefore depends
only on the set of removed leaves. -/
theorem foldl_removeLeaf_eq_keepPrune :
    ∀ (R : List Nat) (t : STree), R.Nodup → t.idxList.Nodup →
      (∀ x, x ∈ R → x ∈ t.leafIdx) → 0 < countKeep R t →
      R.foldl removeLeaf t = keepPrune R t := by
  intro R
  induction R with
  | nil =>
    intro t _ _ _ _
    rw [List.foldl_nil, keepPrune_nil]
  | cons a R ih =>
    intro t hndR hndt hmem hpos
    have ha : a ∈ t.leafIdx := hmem a (List.mem_cons_self ..)
    have haR : a ∉ R := (List.nodup_cons.mp hndR).1
    have hne : t ≠ STree.leaf a := by
      intro he
      subst he
      rw [countKeep, if_pos (List.mem_cons_self ..)] at hpos
      exact Nat.lt_irrefl 0 hpos
    have hCa : countKeep R (removeLeaf t a) = countKeep (a :: R) t :=
      countKeep_removeLeaf ha hndt hne
    rw [List.foldl_cons,
      ih (removeLeaf t a) (List.nodup_cons.mp hndR).2
        ((removeLeaf_idxList_sublist t a).nodup hndt)
        (fun x hx => mem_leafIdx_removeLeaf t a x
          (hmem x (List.mem_cons_of_mem _ hx))
          (fun he => haR (he ▸ hx)) hndt)
        (hCa ▸ hpos),
      keepPrune_removeLeaf hndt ha hpos]

/-- Order independence of the removal fold: permuted removal lists give
the same pruned tree. -/
theorem foldl_removeLeaf_perm {R1 R2 : List Nat} {t : STree}
    (hperm : R1.Perm R2) (hnd1 : R1.Nodup) (hndt : t.idxList.Nodup)
    (hmem : ∀ x, x ∈ R1 → x ∈ t.leafIdx) (hpos : 0 < countKeep R1 t) :
    R1.foldl removeLeaf t = R2.foldl removeLeaf t := by
  have hmem2 : ∀ x, x ∈ R2 → x ∈ t.leafIdx :=
    fun x hx => hmem x (hperm.mem_iff.mpr hx)
  have hiff : ∀ x, x ∈ t.leafIdx → (x ∈ R1 ↔ x ∈ R2) :=
    fun x _ => hperm.mem_iff
  rw [foldl_removeLeaf_eq_keepPrune R1 t hnd1 hndt hmem hpos,
    foldl_removeLeaf_eq_keepPrune R2 t (hperm.nodup hnd1) hndt hmem2
      (countKeep_congr hiff ▸ hpos),
    keepPrune_congr hiff]

/-- Whatever `find_root` returns has no parent: the loop only stops on a
record whose parent link is `None`. -/
theorem find_root_parent_none :
    ∀ (fuel : Nat) (ft : FlatTree) (i r : Nat),
      find_root fuel ft i = some r →
      ∃ nd, ft.nodes[r]? = some nd ∧ nd.parent = none := by
  intro fuel
  induction fuel with
  | zero => intro ft i r h; cases h
  | succ fuel ih =>
    intro ft i r h
    rw [find_root] at h
    cases hg : ft.nodes[i]? with
    | none => rw [hg] at h; cases h
    | some nd =>
      rw [hg, Option.some_bind] at h
      cases hp : nd.parent with
      | none =>
        rw [hp] at h
        cases h
        exact ⟨nd, hg, hp⟩
      | some p =>
        rw [hp] at h
        exact ih ft p r h

/-- More fuel never changes a successful `find_root`. -/
theorem find_root_mono :
    ∀ (n : Nat) (ft : FlatTree) (i r : Nat), find_root n ft i = some r →
      ∀ m, n ≤ m → find_root m ft i = some r := by
  intro n
  induction n with
  | zero => intro ft i r h; cases h
  | succ n ih =>
    intro ft i r h m hm
    obtain ⟨m', rfl⟩ : ∃ m', m = m' + 1 :=
      ⟨m - 1, (Nat.succ_pred_eq_of_pos (Nat.lt_of_lt_of_le (Nat.succ_pos n) hm)).symm⟩
    rw [find_root] at h ⊢
    cases hg : ft.nodes[i]? with
    | none => rw [hg] at h; cases h
    | some nd =>
      rw [hg, Option.some_bind] at h
      rw [Option.some_bind]
      cases hp : nd.parent with
      | none =>
        rw [hp] at h
        exact h
      | some p =>
        rw [hp] at h
        exact ih ft p r h m' (Nat.le_of_succ_le_succ hm)

theorem parentIter_add (ft : FlatTree) :
    ∀ (m n i : Nat), parentIter ft (m + n) i =
      (parentIter ft m i).bind (fun j => parentIter ft n j) := by
  intro m
  induction m with
  | zero =>
    intro n i
    rw [Nat.zero_add, parentIter, Option.some_bind]
  | succ m ih =>
    intro n i
    rw [Nat.succ_add, parentIter, parentIter]
    cases hg : ft.nodes[i]? with
    | none => rfl
    | some nd =>
      rw [Option.some_bind, Option.some_bind]
      cases hp : nd.parent with
      | none => rfl
      | some p =>
        rw [Option.some_bind, Option.some_bind]
        exact ih n p

/-- Every index of a represented subtree climbs to the subtree root in at
most as many parent steps as the subtree has nodes. -/
theorem parentIter_reaches_root {ft : FlatTree} :
    ∀ (t : STree), ReprAt ft t → ∀ i, i ∈ t.idxList →
      ∃ n, n ≤ t.idxList.length ∧ parentIter ft n i = some t.idx := by
  intro t
  induction t with
  | leaf b =>
    intro _ i hi
    have : i = b := List.mem_singleton.mp hi
    subst this
    exact ⟨0, Nat.zero_le _, rfl⟩
  | node b l r ihl ihr =>
    intro hrep i hi
    obtain ⟨⟨ndP, hPi, hPl, hPr⟩, ⟨ndl, hndl, hlpar⟩,
      ⟨ndr, hndr, hrpar⟩, hRl, hRr⟩ := hrep
    have hstepl : parentIter ft 1 l.idx = some b := by
      rw [parentIter, hndl, Option.some_bind, hlpar, Option.some_bind,
        parentIter]
    have hstepr : parentIter ft 1 r.idx = some b := by
      rw [parentIter, hndr, Option.some_bind, hrpar, Option.some_bind,
        parentIter]
    rcases List.mem_cons.mp hi with hib | hlr
    · subst hib
      exact ⟨0, Nat.zero_le _, rfl⟩
    · rcases List.mem_append.mp hlr with hil | hir2
      · obtain ⟨n, hn, hit⟩ := ihl hRl i hil
        refine ⟨n + 1, ?_, ?_⟩
        · have : l.idxList.length + 1 ≤ (STree.node b l r).idxList.length := by
            rw [STree.idxList, List.length_cons, List.length_append]
            omega
          omega
        · rw [parentIter_add ft n 1 i, hit, Option.some_bind, hstepl]
          rfl
      · obtain ⟨n, hn, hit⟩ := ihr hRr i hir2
        refine ⟨n + 1, ?_, ?_⟩
        · have : r.idxList.length + 1 ≤ (STree.node b l r).idxList.length := by
            rw [STree.idxList, List.length_cons, List.length_append]
            omega
          omega
        · rw [parentIter_add ft n 1 i, hit, Option.some_bind, hstepr]
          rfl

/-- `find_root` succeeds along any finite parent chain ending in a
parentless record, with any fuel above the chain length. -/
theorem find_root_of_parentIter {ft : FlatTree} {r : Nat} :
    ∀ (n i : Nat), parentIter ft n i = some r →
      (∃ nd, ft.nodes[r]? = some nd ∧ nd.parent = none) →
      ∀ fuel, n < fuel → find_root fuel ft i = some r := by
  intro n
  induction n with
  | zero =>
    intro i hit hr fuel hfuel
    cases hit
    obtain ⟨nd, hnd, hpar⟩ := hr
    obtain ⟨f, rfl⟩ : ∃ f, fuel = f + 1 :=
      ⟨fuel - 1, (Nat.succ_pred_eq_of_pos hfuel).symm⟩
    rw [find_root, hnd, Option.some_bind, hpar]
  | succ n ih =>
    intro i hit hr fuel hfuel
    rw [show n + 1 = 1 + n from Nat.add_comm n 1, parentIter_add] at hit
    obtain ⟨f, rfl⟩ : ∃ f, fuel = f + 1 :=
      ⟨fuel - 1, (Nat.succ_pred_eq_of_pos (Nat.lt_of_le_of_lt (Nat.zero_le _) hfuel)).symm⟩
    rw [find_root]
    cases hg : ft.nodes[i]? with
    | none =>
      rw [parentIter, hg] at hit
      cases hit
    | some nd =>
      rw [Option.some_bind]
      rw [parentIter, hg, Option.some_bind] at hit
      cases hp : nd.parent with
      | none =>
        rw [hp] at hit
        cases hit
      | some p =>
        rw [hp, Option.some_bind, parentIter, Option.some_bind] at hit
        exact ih p hit hr f (Nat.lt_of_succ_lt_succ hfuel)

/-- All indices of a represented tree exist as records. -/
theorem reprAt_record_mem {ft : FlatTree} :
    ∀ (t : STree), ReprAt ft t → ∀ j, j ∈ t.idxList →
      ∃ nd, ft.nodes[j]? = some nd := by
  intro t
  induction t with
  | leaf b =>
    intro h j hj
    have : j = b := List.mem_singleton.mp hj
    subst this
    exact reprAt_record h
  | node b l r ihl ihr =>
    intro h j hj
    obtain ⟨⟨ndP, hPi, -, -⟩, -, -, hRl, hRr⟩ := h
    rcases List.mem_cons.mp hj with hb | hlr
    · subst hb; exact ⟨ndP, hPi⟩
    · rcases List.mem_append.mp hlr with hl | hr
      · exact ihl hRl j hl
      · exact ihr hRr j hr

/-- A duplicate-free list of valid indices is no longer than the arena. -/
theorem nodup_indices_length_le {ft : FlatTree} {l : List Nat}
    (hnd : l.Nodup) (hlt : ∀ j, j ∈ l → j < ft.nodes.length) :
    l.length ≤ ft.nodes.length := by
  classical
  have hsub : l.toFinset ⊆ Finset.range ft.nodes.length := by
    intro x hx
    rw [Finset.mem_range]
    exact hlt x (List.mem_toFinset.mp hx)
  have := Finset.card_le_card hsub
  rw [Finset.card_range] at this
  rw [← List.toFinset_card_of_nodup hnd]
  exact this

/-- From any index of a represented tree, `find_root` with the pipeline's
fuel returns the tree's root index. -/
theorem find_root_of_represents {ft : FlatTree} {t : STree}
    (hrep : Represents ft t) {i : Nat} (hi : i ∈ t.idxList) :
    find_root (ft.nodes.length + 1) ft i = some t.idx := by
  obtain ⟨hnd, hroot, hAt⟩ := hrep
  obtain ⟨n, hn, hit⟩ := parentIter_reaches_root t hAt i hi
  have hlen : t.idxList.length ≤ ft.nodes.length :=
    nodup_indices_length_le hnd (fun j hj =>
      getElem?_some_lt (reprAt_record_mem t hAt j hj).choose_spec)
  exact find_root_of_parentIter n i hit hroot _ (by omega)

theorem enumF_fst_ge : ∀ (l : List α) (k : Nat) (p : Nat × α),
    p ∈ enumF k l → k ≤ p.1 := by
  intro l
  induction l with
  | nil => intro k p h; cases h
  | cons x xs ih =>
    intro k p h
    rcases List.mem_cons.mp h with he | hm
    · subst he; exact Nat.le_refl k
    · exact Nat.le_of_succ_le (ih (k + 1) p hm)

theorem enumF_pairwise : ∀ (l : List α) (k : Nat),
    (enumF k l).Pairwise (fun p q => p.1 < q.1) := by
  intro l
  induction l with
  | nil => intro k; exact List.Pairwise.nil
  | cons x xs ih =>
    intro k
    refine List.Pairwise.cons ?_ (ih (k + 1))
    intro p hp
    exact Nat.lt_of_lt_of_le (Nat.lt_succ_self k) (enumF_fst_ge xs (k + 1) p hp)

theorem enumF_mem_getElem : ∀ (l : List α) (k : Nat) (p : Nat × α),
    p ∈ enumF k l → k ≤ p.1 ∧ l[p.1 - k]? = some p.2 := by
  intro l
  induction l with
  | nil => intro k p h; cases h
  | cons x xs ih =>
    intro k p h
    rcases List.mem_cons.mp h with he | hm
    · subst he
      exact ⟨Nat.le_refl k, by rw [Nat.sub_self]; simp⟩
    · obtain ⟨hk, hget⟩ := ih (k + 1) p hm
      refine ⟨Nat.le_of_succ_le hk, ?_⟩
      have hd : p.1 - k = (p.1 - (k + 1)) + 1 := by omega
      rw [hd]
      simpa using hget

/-- Arena record behind a leaf-record pair. -/
theorem leafRecs_record {ft : FlatTree} {p : Nat × FlatNode}
    (h : p ∈ leafRecs ft) : ft.nodes[p.1]? = some p.2 := by
  have hm : p ∈ enumF 0 ft.nodes := (List.mem_filter.mp h).1
  have := (enumF_mem_getElem ft.nodes 0 p hm).2
  simpa using this

theorem mapOpt_eq_some_of {f : α → Option β} {g : α → β} :
    ∀ l : List α, (∀ x, x ∈ l → f x = some (g x)) →
      mapOpt f l = some (l.map g) := by
  intro l
  induction l with
  | nil => intro _; rfl
  | cons x xs ih =>
    intro h
    rw [mapOpt, h x (List.mem_cons_self ..), ih (fun y hy => h y (List.mem_cons_of_mem _ hy)),
      List.map_cons]

theorem mapOpt_eq_none_of {f : α → Option β} :
    ∀ l : List α, (∃ x, x ∈ l ∧ f x = none) → mapOpt f l = none := by
  intro l
  induction l with
  | nil => intro ⟨x, hx, _⟩; cases hx
  | cons y ys ih =>
    intro ⟨x, hx, hfx⟩
    rw [mapOpt]
    rcases List.mem_cons.mp hx with he | hm
    · subst he
      rw [hfx]
    · rw [ih ⟨x, hm, hfx⟩]
      cases f y <;> rfl

/-- Strict comparison on comparable depth values (NaN compares with
nothing). -/
def fLt (x y : FVal) : Prop :=
  match x, y with
  | some a, some b => a < b
  | _, _ => False

/-- The strict selection order: deeper first, ties broken by smaller
discovery index. -/
def pairKeyLt (a b : Nat × FVal) : Prop :=
  fLt b.2 a.2 ∨ (a.2 = b.2 ∧ a.1 < b.1)

theorem insertD_perm (x : Nat × FVal) :
    ∀ l : List (Nat × FVal), (insertD x l).Perm (x :: l) := by
  intro l
  induction l with
  | nil => exact List.Perm.refl _
  | cons y ys ih =>
    rw [insertD]
    by_cases h : dge x.2 y.2 = true
    · rw [if_pos h]
    · rw [if_neg h]
      exact List.Perm.trans (List.Perm.cons y ih) (List.Perm.swap x y ys)

theorem isortD_perm : ∀ l : List (Nat × FVal), (isortD l).Perm l := by
  intro l
  induction l with
  | nil => exact List.Perm.refl _
  | cons x xs ih =>
    exact List.Perm.trans (insertD_perm x (isortD xs)) (List.Perm.cons x ih)

theorem dge_cases {x y : FVal} (hx : x.isSome = true) (hy : y.isSome = true) :
    (dge x y = true ∧ (fLt y x ∨ x = y)) ∨ (dge x y = false ∧ fLt x y) := by
  obtain ⟨a, rfl⟩ := Option.isSome_iff_exists.mp hx
  obtain ⟨b, rfl⟩ := Option.isSome_iff_exists.mp hy
  rw [dge, fLt, fLt]
  by_cases h : b ≤ a
  · refine Or.inl ⟨by rw [decide_eq_true h], ?_⟩
    rcases lt_or_eq_of_le h with hlt | heq
    · exact Or.inl hlt
    · exact Or.inr (by rw [heq])
  · exact Or.inr ⟨by rw [decide_eq_false h], lt_of_not_le h⟩

theorem pairKeyLt_of_dge {x w : Nat × FVal}
    (hx : x.2.isSome = true) (hw : w.2.isSome = true)
    (hge : dge x.2 w.2 = true) (hidx : x.1 < w.1) : pairKeyLt x w := by
  rcases dge_cases hx hw with ⟨-, hlt | heq⟩ | ⟨hfalse, -⟩
  · exact Or.inl hlt
  · exact Or.inr ⟨heq, hidx⟩
  · rw [hge] at hfalse; cases hfalse

theorem dge_trans_key {x y w : Nat × FVal}
    (hx : x.2.isSome = true) (hy : y.2.isSome = true) (hw : w.2.isSome = true)
    (hge : dge x.2 y.2 = true) (hk : pairKeyLt y w) : dge x.2 w.2 = true := by
  obtain ⟨a, ha⟩ := Option.isSome_iff_exists.mp hx
  obtain ⟨b, hb⟩ := Option.isSome_iff_exists.mp hy
  obtain ⟨c, hc⟩ := Option.isSome_iff_exists.mp hw
  rw [ha, hb, dge] at hge
  have hba : b ≤ a := of_decide_eq_true hge
  have hcb : c ≤ b := by
    rcases hk with hlt | ⟨heq, -⟩
    · rw [hb, hc, fLt] at hlt
      exact le_of_lt hlt
    · rw [hb, hc] at heq
      cases heq
      exact le_refl _
  rw [ha, hc, dge]
  exact decide_eq_true (le_trans hcb hba)

/-- Inserting an element whose discovery index is below everything in an
already sorted list keeps the list sorted for the selection order. -/
theorem insertD_pairwise {x : Nat × FVal} :
    ∀ {sl : List (Nat × FVal)}, sl.Pairwise pairKeyLt →
      (∀ y, y ∈ sl → x.1 < y.1) →
      x.2.isSome = true → (∀ y, y ∈ sl → y.2.isSome = true) →
      (insertD x sl).Pairwise pairKeyLt := by
  intro sl
  induction sl with
  | nil =>
    intro _ _ _ _
    exact List.pairwise_singleton ..
  | cons y ys ih =>
    intro hs hidx hxs hall
    rw [insertD]
    by_cases h : dge x.2 y.2 = true
    · rw [if_pos h]
      refine List.Pairwise.cons ?_ hs
      intro w hw
      rcases List.mem_cons.mp hw with he | hm
      · subst he
        exact pairKeyLt_of_dge hxs (hall w (List.mem_cons_self ..)) h
          (hidx w (List.mem_cons_self ..))
      · have hyw : pairKeyLt y w :=
          (List.pairwise_cons.mp hs).1 w hm
        have : dge x.2 w.2 = true :=
          dge_trans_key hxs (hall y (List.mem_cons_self ..))
            (hall w (List.mem_cons_of_mem _ hm)) h hyw
        exact pairKeyLt_of_dge hxs (hall w (List.mem_cons_of_mem _ hm)) this
          (hidx w (List.mem_cons_of_mem _ hm))
    · rw [if_neg h]
      have hyx : pairKeyLt y x := by
        rcases dge_cases hxs (hall y (List.mem_cons_self ..)) with
          ⟨htrue, -⟩ | ⟨-, hlt⟩
        · exact absurd htrue h
        · exact Or.inl hlt
      refine List.Pairwise.cons ?_ ?_
      · intro w hw
        rcases (insertD_perm x ys).mem_iff.mp hw with hm
        rcases List.mem_cons.mp hm with he | hm'
        · subst he; exact hyx
        · exact (List.pairwise_cons.mp hs).1 w hm'
      · exact ih (List.pairwise_cons.mp hs).2
          (fun w hw => hidx w (List.mem_cons_of_mem _ hw)) hxs
          (fun w hw => hall w (List.mem_cons_of_mem _ hw))

/-- The stable descending sort of a list with strictly increasing
discovery indices and comparable depths is sorted for the strict
selection order (depth descending, ties by discovery order). -/
theorem isortD_pairwise :
    ∀ {l : List (Nat × FVal)}, l.Pairwise (fun p q => p.1 < q.1) →
      (∀ y, y ∈ l → y.2.isSome = true) →
      (isortD l).Pairwise pairKeyLt := by
  intro l
  induction l with
  | nil => intro _ _; exact List.Pairwise.nil
  | cons x xs ih =>
    intro hp hall
    rw [isortD]
    have hperm := isortD_perm xs
    refine insertD_pairwise
      (ih (List.pairwise_cons.mp hp).2
        (fun y hy => hall y (List.mem_cons_of_mem _ hy)))
      (fun y hy => (List.pairwise_cons.mp hp).1 y (hperm.mem_iff.mp hy))
      (hall x (List.mem_cons_self ..))
      (fun y hy => hall y (List.mem_cons_of_mem _ (hperm.mem_iff.mp hy)))

/-- The depth stored at index `i`, as the program would unwrap it
(`none` for a missing record, a missing depth, or NaN). -/
def dQ (ft : FlatTree) (i : Nat) : FVal :=
  match ft.nodes[i]? with
  | some nd => nd.depth.getD none
  | none => none

/-- The selection order on leaf indices: strictly deeper first, ties by
discovery (= arena) order. -/
def keyLt (ft : FlatTree) (i j : Nat) : Prop :=
  fLt (dQ ft j) (dQ ft i) ∨ (dQ ft i = dQ ft j ∧ i < j)

theorem keyLt_ne {ft : FlatTree} {i j : Nat} (h : keyLt ft i j) : i ≠ j := by
  intro he
  subst he
  rcases h with h | ⟨-, h⟩
  · rcases hv : dQ ft i with - | q
    · rw [hv] at h; cases h
    · rw [hv] at h
      exact lt_irrefl q h
  · exact Nat.lt_irrefl i h

/-- Everything `find_deepest_nodes` guarantees when every leaf carries a
comparable depth: it succeeds, returns `min n (#leaves)` distinct leaf
indices, sorted strictly by the selection order; every leaf left out is
dominated by every selected leaf; and when `n` covers all leaves the
output is a permutation of the full leaf list. -/
theorem find_deepest_full (ft : FlatTree) (n : Nat)
    (hdep : ∀ p, p ∈ leafRecs ft → ∃ q : ℚ, p.2.depth = some (some q)) :
    ∃ out, find_deepest_nodes ft n = some out ∧
      out.length = min n (find_all_leaves ft).length ∧
      (∀ i, i ∈ out → i ∈ find_all_leaves ft) ∧
      out.Pairwise (keyLt ft) ∧
      (∀ l, l ∈ find_all_leaves ft → l ∉ out →
        ∀ k, k ∈ out → keyLt ft k l) ∧
      ((find_all_leaves ft).length ≤ n → out.Perm (find_all_leaves ft)) ∧
      out.Nodup := by
  classical
  have hmap : mapOpt (fun p => p.2.depth.map fun d => (p.1, d)) (leafRecs ft)
      = some ((leafRecs ft).map fun p => (p.1, p.2.depth.getD none)) := by
    refine mapOpt_eq_some_of _ (fun p hp => ?_)
    obtain ⟨q, hq⟩ := hdep p hp
    rw [hq]
    rfl
  set lwd : List (Nat × FVal) :=
    (leafRecs ft).map fun p => (p.1, p.2.depth.getD none) with hlwd
  have hfst : lwd.map (·.1) = find_all_leaves ft := by
    rw [hlwd, List.map_map]
    rfl
  have hsome : ∀ y, y ∈ lwd → y.2.isSome = true := by
    intro y hy
    rw [hlwd] at hy
    obtain ⟨p, hp, hgp⟩ := List.mem_map.mp hy
    obtain ⟨q, hq⟩ := hdep p hp
    rw [← hgp, hq]
    rfl
  have hdq : ∀ y, y ∈ lwd → y.2 = dQ ft y.1 := by
    intro y hy
    rw [hlwd] at hy
    obtain ⟨p, hp, hgp⟩ := List.mem_map.mp hy
    have hrec := leafRecs_record hp
    rw [← hgp, dQ, hrec]
  have hpf : lwd.Pairwise (fun p q => p.1 < q.1) := by
    rw [hlwd, List.pairwise_map]
    exact List.Pairwise.filter _ (enumF_pairwise ft.nodes 0)
  have hpan : sortPanics lwd = false := by
    rw [sortPanics]
    have hany : lwd.any (fun p => p.2.isNone) = false := by
      rw [List.any_eq_false]
      intro y hy
      obtain ⟨q, hq⟩ := Option.isSome_iff_exists.mp (hsome y hy)
      rw [hq]
      intro hcontra
      cases hcontra
    rw [hany, Bool.and_false]
  set S : List (Nat × FVal) := isortD lwd with hS
  have hSperm : S.Perm lwd := isortD_perm lwd
  have hSpair : S.Pairwise pairKeyLt := isortD_pairwise hpf hsome
  have hSsome : ∀ y, y ∈ S → y.2.isSome = true :=
    fun y hy => hsome y (hSperm.mem_iff.mp hy)
  have hSdq : ∀ y, y ∈ S → y.2 = dQ ft y.1 :=
    fun y hy => hdq y (hSperm.mem_iff.mp hy)
  have hkey : ∀ p q, p ∈ S → q ∈ S → pairKeyLt p q → keyLt ft p.1 q.1 := by
    intro p q hp hq hpq
    rw [keyLt, ← hSdq p hp, ← hSdq q hq]
    exact hpq
  have hout : find_deepest_nodes ft n
      = some ((S.take n).map (·.1)) := by
    unfold find_deepest_nodes
    rw [hmap]
    show (if sortPanics lwd then none
      else some (((isortD lwd).take n).map (·.1))) = _
    rw [hpan, if_neg Bool.false_ne_true, hS]
  have hlenL : lwd.length = (find_all_leaves ft).length := by
    rw [← hfst]
    exact (List.length_map lwd _).symm
  have htakeS : ∀ p, p ∈ S.take n → p ∈ S :=
    fun p hp => (List.take_sublist n S).subset hp
  refine ⟨(S.take n).map (·.1), hout, ?_, ?_, ?_, ?_, ?_, ?_⟩
  · rw [List.length_map, List.length_take, hSperm.length_eq, hlenL]
  · intro i hi
    obtain ⟨p, hp, hpi⟩ := List.mem_map.mp hi
    rw [← hfst]
    exact List.mem_map.mpr ⟨p, hSperm.mem_iff.mp (htakeS p hp), hpi⟩
  · rw [List.pairwise_map]
    refine List.Pairwise.imp_of_mem ?_
      (List.Pairwise.sublist (List.take_sublist n S) hSpair)
    intro p q hp hq hpq
    exact hkey p q (htakeS p hp) (htakeS q hq) hpq
  · intro l hl hlo k hk
    obtain ⟨pl, hpl, hpl1⟩ := List.mem_map.mp (by rw [hfst]; exact hl :
      l ∈ lwd.map (·.1))
    have hplS : pl ∈ S := hSperm.mem_iff.mpr hpl
    have hsplit : pl ∈ S.take n ++ S.drop n := by
      rw [List.take_append_drop]
      exact hplS
    have hpldrop : pl ∈ S.drop n := by
      rcases List.mem_append.mp hsplit with h | h
      · exact absurd (List.mem_map.mpr ⟨pl, h, hpl1⟩) hlo
      · exact h
    obtain ⟨pk, hpk, hpk1⟩ := List.mem_map.mp hk
    have hcross := (List.pairwise_append.mp
      (by rw [List.take_append_drop]; exact hSpair)).2.2 pk hpk pl hpldrop
    have hpkS : pk ∈ S := htakeS pk hpk
    have hplS' : pl ∈ S := hplS
    have := hkey pk pl hpkS hplS' hcross
    rw [hpk1, hpl1] at this
    exact this
  · intro hn
    have hlen : S.length ≤ n := by
      rw [hSperm.length_eq, hlenL]
      exact hn
    rw [List.take_of_length_le hlen, ← hfst]
    exact hSperm.map (·.1)
  · unfold List.Nodup
    rw [List.pairwise_map]
    refine List.Pairwise.imp_of_mem ?_
      (List.Pairwise.sublist (List.take_sublist n S) hSpair)
    intro p q hp hq hpq
    exact keyLt_ne (hkey p q (htakeS p hp) (htakeS q hq) hpq)

/-- Decidable check that a record carries a comparable (non-NaN) depth. -/
def hasRatDepth (nd : FlatNode) : Bool :=
  match nd.depth with
  | some (some _) => true
  | _ => false

theorem hasRatDepth_iff {nd : FlatNode} :
    hasRatDepth nd = true ↔ ∃ q : ℚ, nd.depth = some (some q) := by
  rw [hasRatDepth]
  cases hd : nd.depth with
  | none =>
    simp
  | some d =>
    cases d with
    | none => simp
    | some q => simp

theorem find_all_leaves_nodup (ft : FlatTree) :
    (find_all_leaves ft).Nodup := by
  rw [find_all_leaves]
  unfold List.Nodup
  rw [List.pairwise_map]
  refine List.Pairwise.imp ?_
    (List.Pairwise.filter _ (enumF_pairwise ft.nodes 0))
  intro p q h
  exact Nat.ne_of_lt h

theorem STree.leafIdx_ne_nil : ∀ t : STree, t.leafIdx ≠ [] := by
  intro t
  induction t with
  | leaf i => exact fun h => List.noConfusion h
  | node i l r ihl ihr =>
    intro h
    rw [STree.leafIdx] at h
    exact ihl (List.append_eq_nil.mp h).1

theorem STree.leafIdx_sublist : ∀ t : STree, t.leafIdx.Sublist t.idxList := by
  intro t
  induction t with
  | leaf i => exact List.Sublist.refl _
  | node i l r ihl ihr =>
    exact List.Sublist.trans (List.Sublist.append ihl ihr)
      (List.sublist_cons_self ..)

theorem STree.leafIdx_nodup {t : STree} (h : t.idxList.Nodup) :
    t.leafIdx.Nodup :=
  (STree.leafIdx_sublist t).nodup h

/-- A tree whose only leaf index is `x` is the single leaf `x`. -/
theorem eq_leaf_of_leafIdx {t : STree} {x : Nat}
    (hnd : t.idxList.Nodup) (h : ∀ y, y ∈ t.leafIdx ↔ y = x) :
    t = STree.leaf x := by
  cases t with
  | leaf b =>
    have : b = x := (h b).mp (List.mem_singleton.mpr rfl)
    rw [this]
  | node i l r =>
    exfalso
    obtain ⟨-, -, -, -, hdisj⟩ := STree.node_nodup hnd
    obtain ⟨yl, hyl⟩ := List.exists_mem_of_ne_nil _ (STree.leafIdx_ne_nil l)
    obtain ⟨yr, hyr⟩ := List.exists_mem_of_ne_nil _ (STree.leafIdx_ne_nil r)
    have h1 : yl = x := (h yl).mp (List.mem_append.mpr (Or.inl hyl))
    have h2 : yr = x := (h yr).mp (List.mem_append.mpr (Or.inr hyr))
    subst h1
    subst h2
    exact hdisj (STree.leafIdx_subset_idxList l hyl)
      (STree.leafIdx_subset_idxList r hyr)

/-- The removed leaf is gone from the pruned tree. -/
theorem not_mem_leafIdx_removeLeaf :
    ∀ (t : STree) (x : Nat), t.idxList.Nodup → t ≠ STree.leaf x →
      x ∉ (removeLeaf t x).leafIdx := by
  intro t
  induction t with
  | leaf b =>
    intro x _ hne hx
    have : x = b := List.mem_singleton.mp hx
    subst this
    exact hne rfl
  | node i l r ihl ihr =>
    intro x hnd _
    obtain ⟨-, -, hdl, hdr, hdisj⟩ := STree.node_nodup hnd
    rw [removeLeaf]
    by_cases hl : l = STree.leaf x
    · rw [if_pos hl]
      intro hx
      subst hl
      exact hdisj (List.mem_singleton.mpr rfl)
        (STree.leafIdx_subset_idxList r hx)
    · rw [if_neg hl]
      by_cases hr : r = STree.leaf x
      · rw [if_pos hr]
        intro hx
        subst hr
        exact hdisj (STree.leafIdx_subset_idxList l hx)
          (List.mem_singleton.mpr rfl)
      · rw [if_neg hr]
        intro hx
        rcases List.mem_append.mp hx with hxl | hxr
        · exact ihl x hdl hl hxl
        · exact ihr x hdr hr hxr

/-- Removing every leaf panics: the pass eventually calls `change_tree`
on the root of the shrunken tree, whose record has no parent. -/
theorem remove_all_leaves_panics :
    ∀ (R : List Nat) (ft : FlatTree) (t : STree),
      Represents ft t → R.Nodup → R ≠ [] →
      (∀ y, y ∈ t.leafIdx ↔ y ∈ R) →
      remove_all_unsampled ft R = none := by
  intro R
  induction R with
  | nil => intro _ _ _ _ h _; exact absurd rfl h
  | cons x R' ih =>
    intro ft t hrep hnd _ hiff
    have hndt : t.idxList.Nodup := hrep.1
    have hxR' : x ∉ R' := (List.nodup_cons.mp hnd).1
    by_cases hR'nil : R' = []
    · subst hR'nil
      have hone : ∀ y, y ∈ t.leafIdx ↔ y = x := by
        intro y
        rw [hiff y]
        constructor
        · intro h
          rcases List.mem_cons.mp h with h | h
          · exact h
          · cases h
        · intro h
          exact h ▸ List.mem_cons_self ..
      have ht : t = STree.leaf x := eq_leaf_of_leafIdx hndt hone
      subst ht
      obtain ⟨-, ⟨nd, hnd', hpar⟩, -⟩ := hrep
      unfold remove_all_unsampled
      rw [List.foldlM_cons]
      have hchange : change_tree ft x = none := by
        unfold change_tree
        rw [show ft.nodes[x]? = some nd from hnd', Option.some_bind, hpar]
        rfl
      rw [Option.bind_eq_bind, hchange, Option.none_bind]
    · obtain ⟨z, hzR'⟩ := List.exists_mem_of_ne_nil R' hR'nil
      have hxleaf : x ∈ t.leafIdx := (hiff x).mpr (List.mem_cons_self ..)
      have hzleaf : z ∈ t.leafIdx :=
        (hiff z).mpr (List.mem_cons_of_mem _ hzR')
      have hzx : z ≠ x := by
        intro he
        exact hxR' (he ▸ hzR')
      have hnl : ∀ b, t ≠ STree.leaf b :=
        not_leaf_of_two_leaves hzleaf hxleaf hzx
      obtain ⟨ft1, hct, hrep1⟩ := splice_step hrep hxleaf hnl
      have hiff' : ∀ y, y ∈ (removeLeaf t x).leafIdx ↔ y ∈ R' := by
        intro y
        constructor
        · intro hy
          have hyt : y ∈ t.leafIdx :=
            (removeLeaf_leafIdx_sublist t x).subset hy
          have hyx : y ≠ x := by
            intro he
            subst he
            exact not_mem_leafIdx_removeLeaf t y hndt (hnl y) hy
          rcases List.mem_cons.mp ((hiff y).mp hyt) with h | h
          · exact absurd h hyx
          · exact h
        · intro hy
          have hyx : y ≠ x := fun he => hxR' (he ▸ hy)
          exact mem_leafIdx_removeLeaf t x y
            ((hiff y).mpr (List.mem_cons_of_mem _ hy)) hyx hndt
      have hrec := ih ft1 (removeLeaf t x) hrep1
        (List.nodup_cons.mp hnd).2 hR'nil hiff'
      unfold remove_all_unsampled at hrec ⊢
      rw [List.foldlM_cons, Option.bind_eq_bind, hct, Option.some_bind]
      exact hrec

theorem STree.size_eq_length_idxList : ∀ t : STree,
    t.size = t.idxList.length := by
  intro t
  induction t with
  | leaf i => rfl
  | node i l r ihl ihr =>
    rw [STree.size, STree.idxList, List.length_cons, List.length_append,
      ihl, ihr]
    omega

/-- Reading the child links below a represented subtree reconstructs the
abstract tree, with fuel at least the subtree size. -/
theorem readTree_of_reprAt {ft : FlatTree} :
    ∀ (t : STree), ReprAt ft t → ∀ fuel, t.size ≤ fuel →
      readTree ft fuel t.idx = some t := by
  intro t
  induction t with
  | leaf i =>
    intro h fuel hfuel
    obtain ⟨nd, hnd, h1, h2⟩ := h
    obtain ⟨f, rfl⟩ : ∃ f, fuel = f + 1 :=
      ⟨fuel - 1, (Nat.succ_pred_eq_of_pos (Nat.lt_of_lt_of_le Nat.zero_lt_one hfuel)).symm⟩
    rw [readTree]
    rw [show ft.nodes[(STree.leaf i).idx]? = some nd from hnd,
      Option.some_bind, h1, h2]
    rfl
  | node i l r ihl ihr =>
    intro h fuel hfuel
    obtain ⟨⟨nd, hnd, h1, h2⟩, -, -, hbl, hbr⟩ := h
    have hsz : (STree.node i l r).size = 1 + l.size + r.size := rfl
    obtain ⟨f, rfl⟩ : ∃ f, fuel = f + 1 := by
      refine ⟨fuel - 1, ?_⟩
      have : 1 ≤ fuel := by
        rw [hsz] at hfuel
        omega
      omega
    rw [readTree]
    rw [show ft.nodes[(STree.node i l r).idx]? = some nd from hnd,
      Option.some_bind, h1, h2]
    have hfl : l.size ≤ f := by
      rw [hsz] at hfuel
      omega
    have hfr : r.size ≤ f := by
      rw [hsz] at hfuel
      omega
    show ((readTree ft f l.idx).bind fun tl =>
      (readTree ft f r.idx).bind fun tr =>
      some (STree.node (STree.node i l r).idx tl tr)) = some (STree.node i l r)
    rw [ihl hbl f hfl, Option.some_bind, ihr hbr f hfr, Option.some_bind]
    rfl

/-- A represented tree is no larger than its arena. -/
theorem represents_size_le {ft : FlatTree} {t : STree}
    (hrep : Represents ft t) : t.idxList.length ≤ ft.nodes.length :=
  nodup_indices_length_le hrep.1 (fun j hj =>
    getElem?_some_lt (reprAt_record_mem t hrep.2.2 j hj).choose_spec)

/-- No leaf scheduled for removal survives in the removal complement. -/
theorem not_mem_leaves_to_be_removed {leaves sampled : List Nat} {k : Nat}
    (hk : k ∈ sampled) : k ∉ leaves_to_be_removed leaves sampled := by
  intro hc
  rw [leaves_to_be_removed, List.mem_filter] at hc
  have h2 := hc.2
  rw [Bool.not_eq_true'] at h2
  rw [show (sampled.contains k) = List.elem k sampled from rfl,
    List.elem_iff.mpr hk] at h2
  cases h2

/-- Master description of the pruning pipeline on a represented,
depth-annotated tree with a positive sample size: the sampling, the
removal pass and the root recovery all succeed, the final arena
represents the abstract prune, and the new root index is stored. -/
theorem sample_pipeline_spec (ft : FlatTree) (t : STree) (n : Nat)
    (hrep : Represents ft t)
    (hlv : find_all_leaves ft = t.leafIdx)
    (hdep : ∀ p, p ∈ leafRecs ft → hasRatDepth p.2 = true)
    (hn : 1 ≤ n) :
    ∃ sampled ft1 TF,
      find_deepest_nodes ft n = some sampled ∧
      remove_all_unsampled ft
        (leaves_to_be_removed (find_all_leaves ft) sampled) = some ft1 ∧
      TF = (leaves_to_be_removed (find_all_leaves ft) sampled).foldl
        removeLeaf t ∧
      Represents ft1 TF ∧
      sample_pipeline ft n = .ok { ft1 with root := TF.idx } ∧
      (∀ k, k ∈ sampled →
        find_root (ft1.nodes.length + 1) ft1 k = some TF.idx) ∧
      sampled ≠ [] := by
  have hdep' : ∀ p, p ∈ leafRecs ft → ∃ q : ℚ, p.2.depth = some (some q) :=
    fun p hp => hasRatDepth_iff.mp (hdep p hp)
  obtain ⟨sampled, hfd, hlen, hmem, hpair, hdom, hover, hnds⟩ :=
    find_deepest_full ft n hdep'
  have hLlen : 1 ≤ (find_all_leaves ft).length := by
    rw [hlv]
    exact List.length_pos.mpr (STree.leafIdx_ne_nil t)
  have hslen : 1 ≤ sampled.length := by
    rw [hlen]
    exact le_min hn hLlen
  obtain ⟨k0, stail, hk0⟩ : ∃ k0 stail, sampled = k0 :: stail := by
    cases sampled with
    | nil => cases hslen
    | cons a s => exact ⟨a, s, rfl⟩
  have hk0get : sampled[0]? = some k0 := by rw [hk0]; simp
  have hk0s : k0 ∈ sampled := by rw [hk0]; exact List.mem_cons_self ..
  have hRnd : (leaves_to_be_removed (find_all_leaves ft) sampled).Nodup :=
    List.Nodup.filter _ (find_all_leaves_nodup ft)
  have hRsub : ∀ x, x ∈ leaves_to_be_removed (find_all_leaves ft) sampled →
      x ∈ t.leafIdx := by
    intro x hx
    rw [leaves_to_be_removed, List.mem_filter] at hx
    rw [← hlv]
    exact hx.1
  have hk0t : k0 ∈ t.leafIdx := by
    rw [← hlv]
    exact hmem k0 hk0s
  have hk0R : k0 ∉ leaves_to_be_removed (find_all_leaves ft) sampled :=
    not_mem_leaves_to_be_removed hk0s
  obtain ⟨ft1, hpass, hrepF⟩ :=
    splice_fold (leaves_to_be_removed (find_all_leaves ft) sampled)
      ft t k0 hrep hRnd hRsub hk0t hk0R
  set TF : STree := (leaves_to_be_removed (find_all_leaves ft) sampled).foldl
    removeLeaf t with hTF
  have hfr : ∀ k, k ∈ sampled →
      find_root (ft1.nodes.length + 1) ft1 k = some TF.idx := by
    intro k hks
    have hkt : k ∈ t.leafIdx := by
      rw [← hlv]
      exact hmem k hks
    have hkR : k ∉ leaves_to_be_removed (find_all_leaves ft) sampled :=
      not_mem_leaves_to_be_removed hks
    have hkTF : k ∈ TF.leafIdx := by
      rw [hTF]
      exact mem_leafIdx_foldl _ t k hrep.1 hkt hkR
    exact find_root_of_represents hrepF
      (STree.leafIdx_subset_idxList TF hkTF)
  refine ⟨sampled, ft1, TF, hfd, hpass, hTF, hrepF, ?_, hfr,
    by rw [hk0]; exact List.cons_ne_nil k0 stail⟩
  unfold sample_pipeline
  rw [hfd]
  show (match remove_all_unsampled ft
      (leaves_to_be_removed (find_all_leaves ft) sampled) with
    | none => RRes.panicked
    | some ft1 =>
      match sampled[0]? with
      | none => RRes.panicked
      | some first_leaf =>
        match find_root (ft1.nodes.length + 1) ft1 first_leaf with
        | none => RRes.panicked
        | some root_of_species_tree =>
          RRes.ok { ft1 with root := root_of_species_tree }) = _
  rw [hpass]
  show (match sampled[0]? with
    | none => RRes.panicked
    | some first_leaf =>
      match find_root (ft1.nodes.length + 1) ft1 first_leaf with
      | none => RRes.panicked
      | some root_of_species_tree =>
        RRes.ok { ft1 with root := root_of_species_tree }) = _
  rw [hk0get]
  show (match find_root (ft1.nodes.length + 1) ft1 k0 with
    | none => RRes.panicked
    | some root_of_species_tree =>
      RRes.ok { ft1 with root := root_of_species_tree }) = _
  rw [hfr k0 hk0s]

/-- Every record of a represented tree has two children (internal node)
or none (leaf). -/
theorem reprAt_two_or_zero {ft : FlatTree} :
    ∀ (t : STree), ReprAt ft t → ∀ j nd, j ∈ t.idxList →
      ft.nodes[j]? = some nd →
      (nd.left_child.isSome = true ∧ nd.right_child.isSome = true) ∨
      (nd.left_child.isNone = true ∧ nd.right_child.isNone = true) := by
  intro t
  induction t with
  | leaf b =>
    intro h j nd hj hnd
    have : j = b := List.mem_singleton.mp hj
    subst this
    obtain ⟨nd', hnd', h1, h2⟩ := h
    rw [hnd'] at hnd
    cases hnd
    right
    rw [h1, h2]
    exact ⟨rfl, rfl⟩
  | node b l r ihl ihr =>
    intro h j nd hj hnd
    obtain ⟨⟨ndP, hPi, hPl, hPr⟩, -, -, hRl, hRr⟩ := h
    rcases List.mem_cons.mp hj with hb | hlr
    · subst hb
      rw [hPi] at hnd
      cases hnd
      left
      rw [hPl, hPr]
      exact ⟨rfl, rfl⟩
    · rcases List.mem_append.mp hlr with hl | hr
      · exact ihl hRl j nd hl hnd
      · exact ihr hRr j nd hr hnd

/-- The pipeline with a zero sample size panics: the removal pass
attempts to remove every leaf and eventually calls `change_tree` on a
parentless record. -/
theorem sample_pipeline_zero (ft : FlatTree) (t : STree)
    (hrep : Represents ft t) (hlv : find_all_leaves ft = t.leafIdx)
    (hdep : ∀ p, p ∈ leafRecs ft → hasRatDepth p.2 = true) :
    sample_pipeline ft 0 = RRes.panicked := by
  have hdep' : ∀ p, p ∈ leafRecs ft → ∃ q : ℚ, p.2.depth = some (some q) :=
    fun p hp => hasRatDepth_iff.mp (hdep p hp)
  obtain ⟨sampled, hfd, hlen, -, -, -, -⟩ := find_deepest_full ft 0 hdep'
  have hs0 : sampled = [] := by
    refine List.eq_nil_of_length_eq_zero ?_
    rw [hlen]
    exact Nat.zero_min _
  subst hs0
  have hRL : leaves_to_be_removed (find_all_leaves ft) []
      = find_all_leaves ft :=
    List.filter_eq_self.mpr (fun a _ => rfl)
  have hiff : ∀ y, y ∈ t.leafIdx ↔ y ∈ find_all_leaves ft := by
    intro y
    rw [hlv]
  have hLne : find_all_leaves ft ≠ [] := by
    rw [hlv]
    exact STree.leafIdx_ne_nil t
  have hpanic : remove_all_unsampled ft
      (leaves_to_be_removed (find_all_leaves ft) []) = none := by
    rw [hRL]
    exact remove_all_leaves_panics (find_all_leaves ft) ft t hrep
      (find_all_leaves_nodup ft) hLne hiff
  unfold sample_pipeline
  rw [hfd]
  show (match remove_all_unsampled ft
      (leaves_to_be_removed (find_all_leaves ft) []) with
    | none => RRes.panicked
    | some ft1 =>
      match ([] : List Nat)[0]? with
      | none => RRes.panicked
      | some first_leaf =>
        match find_root (ft1.nodes.length + 1) ft1 first_leaf with
        | none => RRes.panicked
        | some root_of_species_tree =>
          RRes.ok { ft1 with root := root_of_species_tree }) = _
  rw [hpanic]

/-- Test fixture: the spec's example tree `(A:1,(B:2,C:3):1);` after
depth assignment, laid out in pre-order.  Index 0 is the root, 1 the
leaf `A`, 2 the inner node `(B,C)`, 3 the leaf `B`, 4 the leaf `C`. -/
def exNA : FlatNode := ⟨"A", some 1, some (some 1), some 0, none, none⟩

def exNB : FlatNode := ⟨"B", some 2, some (some 3), some 2, none, none⟩

def exNC : FlatNode := ⟨"C", some 3, some (some 4), some 2, none, none⟩

def exNI : FlatNode := ⟨"", some 1, some (some 1), some 0, some 3, some 4⟩

def exNR : FlatNode := ⟨"", some 0, some (some 0), none, some 1, some 2⟩

def exFT : FlatTree := ⟨[exNR, exNA, exNI, exNB, exNC], 0⟩

def exT : STree := .node 0 (.leaf 1) (.node 2 (.leaf 3) (.leaf 4))

/-- Test fixture: a single leaf whose depth is assigned but NaN. -/
def nanFT : FlatTree := ⟨[⟨"X", some 0, some none, none, none, none⟩], 0⟩

/-- Test fixture: a corrupted arena whose leaf 1 has parent 0, but the
parent records children 2 and 3, neither of which is 1. -/
def badFT : FlatTree :=
  ⟨[⟨"", some 0, none, none, some 2, some 3⟩,
    ⟨"L", some 1, none, some 0, none, none⟩,
    ⟨"S", some 1, none, some 0, none, none⟩,
    ⟨"T", some 1, none, some 0, none, none⟩], 0⟩

/-- C1: Leaf selection.  For every flat tree whose leaves all carry a
comparable depth, `find_deepest_nodes ft n` returns exactly the `n`
deepest leaf indices (all of them when `n` exceeds the leaf count),
ordered by depth descending with ties broken by pre-order discovery
(= arena index) order; every leaf left out is strictly dominated in that
order by every selected leaf; and when `n` covers all leaves the removal
set computed by `leaves_to_be_removed` is empty, so nothing is removed. -/
theorem claim_C1 (ft : FlatTree) (n : Nat)
    (hdep : ∀ p, p ∈ leafRecs ft → hasRatDepth p.2 = true) :
    ∃ out, find_deepest_nodes ft n = some out ∧
      out.length = min n (find_all_leaves ft).length ∧
      (∀ i, i ∈ out → i ∈ find_all_leaves ft) ∧
      out.Nodup ∧
      out.Pairwise (keyLt ft) ∧
      (∀ l, l ∈ find_all_leaves ft → l ∉ out →
        ∀ k, k ∈ out → keyLt ft k l) ∧
      ((find_all_leaves ft).length ≤ n →
        out.Perm (find_all_leaves ft) ∧
        leaves_to_be_removed (find_all_leaves ft) out = []) := by
  have hdep' : ∀ p, p ∈ leafRecs ft → ∃ q : ℚ, p.2.depth = some (some q) :=
    fun p hp => hasRatDepth_iff.mp (hdep p hp)
  obtain ⟨out, hfd, hlen, hmem, hpair, hdom, hover, hnd⟩ :=
    find_deepest_full ft n hdep'
  refine ⟨out, hfd, hlen, hmem, hnd, hpair, hdom, fun hn => ⟨hover hn, ?_⟩⟩
  rw [leaves_to_be_removed, List.filter_eq_nil_iff]
  intro a ha
  have hao : a ∈ out := (hover hn).mem_iff.mpr ha
  rw [show (out.contains a) = List.elem a out from rfl,
    List.elem_iff.mpr hao]
  intro hc
  cases hc

theorem claim_C1_witness :
    (∀ p, p ∈ leafRecs exFT → hasRatDepth p.2 = true) ∧
    ∃ out, find_deepest_nodes exFT 2 = some out ∧
      out.length = min 2 (find_all_leaves exFT).length ∧
      (∀ i, i ∈ out → i ∈ find_all_leaves exFT) := by
  refine ⟨by decide, ?_⟩
  obtain ⟨out, h1, h2, h3, -⟩ := claim_C1 exFT 2 (by decide)
  exact ⟨out, h1, h2, h3⟩

/-- C2: Splice postcondition.  For a leaf record `iL` with parent `p`
whose two (distinct) children are `iL` and its sibling `iS`, a
successful `change_tree ft iL` leaves `p` with parent `None`, re-parents
`iS` to `p`'s former parent, redirects the grandparent's matching child
slot (left if it held `p`, otherwise right) to `iS`, and modifies no
name, branch length or depth anywhere. -/
theorem claim_C2 (ft : FlatTree) (iL p iS : Nat) (ndL ndP ndS : FlatNode)
    (hL : ft.nodes[iL]? = some ndL)
    (_hleaf : isLeafNd ndL = true)
    (hp : ndL.parent = some p)
    (hP : ft.nodes[p]? = some ndP)
    (hchild : (ndP.left_child = some iL ∧ ndP.right_child = some iS) ∨
              (ndP.left_child = some iS ∧ ndP.right_child = some iL))
    (hSne : iS ≠ iL)
    (hS : ft.nodes[iS]? = some ndS)
    (hSp : iS ≠ p)
    (hG : ∀ g, ndP.parent = some g → g ≠ p ∧ g ≠ iS ∧
      ∃ ndG, ft.nodes[g]? = some ndG) :
    ∃ ft', change_tree ft iL = some ft' ∧
      (∃ ndP', ft'.nodes[p]? = some ndP' ∧ ndP'.parent = none) ∧
      (∃ ndS', ft'.nodes[iS]? = some ndS' ∧ ndS'.parent = ndP.parent) ∧
      (∀ g ndG, ndP.parent = some g → ft.nodes[g]? = some ndG →
        ∃ ndG', ft'.nodes[g]? = some ndG' ∧
          (ndG.left_child = some p →
            ndG'.left_child = some iS ∧
            ndG'.right_child = ndG.right_child) ∧
          (ndG.left_child ≠ some p →
            ndG'.right_child = some iS ∧
            ndG'.left_child = ndG.left_child)) ∧
      FieldsEq ft' ft := by
  have hsl : (ndP.left_child = some iL ∧ ndP.right_child = some iS) ∨
      (ndP.left_child = some iS ∧ iS ≠ iL) := by
    rcases hchild with h | h
    · exact Or.inl h
    · exact Or.inr ⟨h.1, hSne⟩
  have hG' : ∀ g, ndP.parent = some g → g ≠ p ∧ g ≠ iS ∧
      ∃ ndG, ft.nodes[g]? = some ndG := hG
  obtain ⟨ft', hct, -, -, hP', hS', hGcl, -⟩ :=
    change_tree_spec ft iL p iS ndL ndP ndS hL hp hP hsl hS hSp hG'
  refine ⟨ft', hct, ⟨_, hP', rfl⟩, ⟨_, hS', rfl⟩, ?_,
    (change_tree_fields hct).1⟩
  intro g ndG hg hGr
  obtain ⟨hthen, helse⟩ := hGcl g ndG hg hGr
  by_cases hc : ndG.left_child = some p
  · exact ⟨_, hthen hc, fun _ => ⟨rfl, rfl⟩, fun hcc => absurd hc hcc⟩
  · exact ⟨_, helse hc, fun hcc => absurd hcc hc, fun _ => ⟨rfl, rfl⟩⟩

theorem claim_C2_witness :
    exFT.nodes[3]? = some exNB ∧ isLeafNd exNB = true ∧
    ∃ ft', change_tree exFT 3 = some ft' ∧
      (∃ ndP', ft'.nodes[2]? = some ndP' ∧ ndP'.parent = none) ∧
      (∃ ndS', ft'.nodes[4]? = some ndS' ∧ ndS'.parent = exNI.parent) := by
  refine ⟨by decide, by decide, ?_⟩
  obtain ⟨ft', h1, h2, h3, -⟩ :=
    claim_C2 exFT 3 2 4 exNB exNI exNC (by decide) (by decide) (by decide)
      (by decide) (Or.inl ⟨by decide, by decide⟩) (by decide) (by decide)
      (by decide)
      (by
        intro g hg
        have : g = 0 := by
          have : (some 0 : Option Nat) = some g := by
            rw [show exNI.parent = some 0 from rfl] at hg
            exact hg
          exact (Option.some.inj this).symm
        subst this
        exact ⟨by decide, by decide, exNR, by decide⟩)
  exact ⟨ft', h1, h2, h3⟩

/-- C8: Root-removal abort.  `change_tree` called on an index whose
record has no parent aborts unconditionally: the `expect` on the parent
link panics (the function returns no recoverable error — its Rust type
is `()`, so `none` here models the panic, not an error return). -/
theorem claim_C8 (ft : FlatTree) (i : Nat) (nd : FlatNode)
    (hget : ft.nodes[i]? = some nd) (hpar : nd.parent = none) :
    change_tree ft i = none := by
  unfold change_tree
  rw [hget, Option.some_bind, hpar]
  rfl

theorem claim_C8_witness :
    exFT.nodes[0]? = some exNR ∧ exNR.parent = none ∧
    change_tree exFT 0 = none :=
  ⟨by decide, by decide, claim_C8 exFT 0 exNR (by decide) (by decide)⟩

/-- C9: Termination of root search.  If following parent links from `i`
reaches, in finitely many steps, a record with no parent, then
`find_root` (the loop, embedded with fuel) terminates: some fuel makes
it return a parentless record's index, and every larger fuel returns the
same index. -/
theorem claim_C9 (ft : FlatTree) (i : Nat)
    (hacyc : ∃ n r nd, parentIter ft n i = some r ∧
      ft.nodes[r]? = some nd ∧ nd.parent = none) :
    ∃ fuel r, find_root fuel ft i = some r ∧
      (∃ nd, ft.nodes[r]? = some nd ∧ nd.parent = none) ∧
      ∀ fuel', fuel ≤ fuel' → find_root fuel' ft i = some r := by
  obtain ⟨n, r, nd, hit, hr, hpar⟩ := hacyc
  have hfr : find_root (n + 1) ft i = some r :=
    find_root_of_parentIter n i hit ⟨nd, hr, hpar⟩ (n + 1) (Nat.lt_succ_self n)
  exact ⟨n + 1, r, hfr, ⟨nd, hr, hpar⟩,
    fun fuel' hle => find_root_mono (n + 1) ft i r hfr fuel' hle⟩

theorem claim_C9_witness :
    (∃ n r nd, parentIter exFT n 4 = some r ∧
      exFT.nodes[r]? = some nd ∧ nd.parent = none) ∧
    ∃ fuel r, find_root fuel exFT 4 = some r ∧
      (∃ nd, exFT.nodes[r]? = some nd ∧ nd.parent = none) ∧
      ∀ fuel', fuel ≤ fuel' → find_root fuel' exFT 4 = some r := by
  have h : ∃ n r nd, parentIter exFT n 4 = some r ∧
      exFT.nodes[r]? = some nd ∧ nd.parent = none :=
    ⟨2, 0, exNR, by decide, by decide, by decide⟩
  exact ⟨h, claim_C9 exFT 4 h⟩

/-- C3: Binary-shape invariant preservation.  Applying `change_tree` once
per member of a duplicate-free removal set of leaves (leaving at least
one surviving leaf `k`) succeeds, and afterwards every node reachable
from the recovered root — found by walking parent links up from `k` —
has either two children or none; the reachable region reads back as a
well-formed binary tree. -/
theorem claim_C3 (ft : FlatTree) (t : STree) (R : List Nat) (k : Nat)
    (hrep : Represents ft t) (hndR : R.Nodup)
    (hsub : ∀ x, x ∈ R → x ∈ t.leafIdx)
    (hk : k ∈ t.leafIdx) (hkR : k ∉ R) :
    ∃ ft' r TF, remove_all_unsampled ft R = some ft' ∧
      find_root (ft'.nodes.length + 1) ft' k = some r ∧
      readTree ft' (ft'.nodes.length + 1) r = some TF ∧
      (∀ j nd, j ∈ TF.idxList → ft'.nodes[j]? = some nd →
        (nd.left_child.isSome = true ∧ nd.right_child.isSome = true) ∨
        (nd.left_child.isNone = true ∧ nd.right_child.isNone = true)) := by
  obtain ⟨ft', hpass, hrepF⟩ := splice_fold R ft t k hrep hndR hsub hk hkR
  have hkTF : k ∈ (R.foldl removeLeaf t).leafIdx :=
    mem_leafIdx_foldl R t k hrep.1 hk hkR
  have hfr : find_root (ft'.nodes.length + 1) ft' k
      = some (R.foldl removeLeaf t).idx :=
    find_root_of_represents hrepF (STree.leafIdx_subset_idxList _ hkTF)
  have hsz : (R.foldl removeLeaf t).size ≤ ft'.nodes.length + 1 := by
    rw [STree.size_eq_length_idxList]
    exact Nat.le_succ_of_le (represents_size_le hrepF)
  refine ⟨ft', (R.foldl removeLeaf t).idx, R.foldl removeLeaf t,
    hpass, hfr, readTree_of_reprAt _ hrepF.2.2 _ hsz, ?_⟩
  intro j nd hj hnd
  exact reprAt_two_or_zero _ hrepF.2.2 j nd hj hnd

theorem claim_C3_witness :
    Represents exFT exT ∧
    ∃ ft' r TF, remove_all_unsampled exFT [1] = some ft' ∧
      find_root (ft'.nodes.length + 1) ft' 4 = some r ∧
      readTree ft' (ft'.nodes.length + 1) r = some TF := by
  refine ⟨by decide, ?_⟩
  obtain ⟨ft', r, TF, h1, h2, h3, -⟩ :=
    claim_C3 exFT exT [1] 4 (by decide) (by decide) (by decide) (by decide)
      (by decide)
  exact ⟨ft', r, TF, h1, h2, h3⟩

/-- C4: Root recovery.  No splice ever touches the stored `root` field;
after the whole removal pass the pipeline computes, by walking parent
links up from a surviving sampled leaf, an index whose record has no
parent — the same index from every sampled leaf — and stores it in
`flat_tree.root` exactly once, in the final result. -/
theorem claim_C4 (ft : FlatTree) (t : STree) (n : Nat)
    (hrep : Represents ft t) (hlv : find_all_leaves ft = t.leafIdx)
    (hdep : ∀ p, p ∈ leafRecs ft → hasRatDepth p.2 = true) (hn : 1 ≤ n) :
    (∀ (ftx ft'x : FlatTree) (i : Nat), change_tree ftx i = some ft'x →
      ft'x.root = ftx.root) ∧
    ∃ sampled ft1 rIdx,
      find_deepest_nodes ft n = some sampled ∧
      remove_all_unsampled ft
        (leaves_to_be_removed (find_all_leaves ft) sampled) = some ft1 ∧
      ft1.root = ft.root ∧
      (∀ k, k ∈ sampled →
        find_root (ft1.nodes.length + 1) ft1 k = some rIdx) ∧
      (∃ nd, ft1.nodes[rIdx]? = some nd ∧ nd.parent = none) ∧
      sample_pipeline ft n = RRes.ok { ft1 with root := rIdx } := by
  refine ⟨fun ftx ft'x i h => (change_tree_fields h).2, ?_⟩
  obtain ⟨sampled, ft1, TF, hfd, hpass, hTF, hrepF, hpipe, hfr, -⟩ :=
    sample_pipeline_spec ft t n hrep hlv hdep hn
  exact ⟨sampled, ft1, TF.idx, hfd, hpass,
    (remove_all_unsampled_fields hpass).2, hfr, hrepF.2.1, hpipe⟩

theorem claim_C4_witness :
    (∀ p, p ∈ leafRecs exFT → hasRatDepth p.2 = true) ∧
    ∃ sampled ft1 rIdx,
      find_deepest_nodes exFT 2 = some sampled ∧
      remove_all_unsampled exFT
        (leaves_to_be_removed (find_all_leaves exFT) sampled) = some ft1 ∧
      ft1.root = exFT.root ∧
      (∃ nd, ft1.nodes[rIdx]? = some nd ∧ nd.parent = none) ∧
      sample_pipeline exFT 2 = RRes.ok { ft1 with root := rIdx } := by
  refine ⟨by decide, ?_⟩
  obtain ⟨-, sampled, ft1, rIdx, h1, h2, h3, -, h5, h6⟩ :=
    claim_C4 exFT exT 2 (by decide) (by decide) (by decide) (by decide)
  exact ⟨sampled, ft1, rIdx, h1, h2, h3, h5, h6⟩

/-- C5, counterexample to the claim as stated: at sample size zero the
pipeline does not reject the request through its error channel — it
panics (unchecked `expect`/index access), as `RRes.panicked`, which is a
different outcome from any `RRes.ioErr` error return. -/
theorem claim_C5_counterexample :
    sample_pipeline exFT 0 = RRes.panicked ∧
    (RRes.panicked : RRes FlatTree) ≠ RRes.ioErr := by
  exact ⟨by decide, by decide⟩

/-- C5, amended: when the requested leaf count is zero the pipeline
aborts with a panic — the removal pass eventually splices at a
parentless record — rather than returning an error value or producing an
empty or rootless tree. -/
theorem claim_C5_amended (ft : FlatTree) (t : STree)
    (hrep : Represents ft t) (hlv : find_all_leaves ft = t.leafIdx)
    (hdep : ∀ p, p ∈ leafRecs ft → hasRatDepth p.2 = true) :
    sample_pipeline ft 0 = RRes.panicked :=
  sample_pipeline_zero ft t hrep hlv hdep

theorem claim_C5_witness :
    Represents exFT exT ∧ sample_pipeline exFT 0 = RRes.panicked :=
  ⟨by decide, claim_C5_amended exFT exT (by decide) (by decide) (by decide)⟩

/-- C6, counterexample to the claim as stated: splicing at index 2 of
the example tree — an internal node, not a leaf — succeeds silently, and
splicing leaf 1 of a corrupted arena whose parent records neither child
equal to 1 also succeeds silently (using the parent's left child as the
sibling); neither is a fatal error. -/
theorem claim_C6_counterexample :
    isLeafNd exNI = false ∧ exFT.nodes[2]? = some exNI ∧
    (change_tree exFT 2).isSome = true ∧
    (∃ nd0, badFT.nodes[0]? = some nd0 ∧ nd0.left_child ≠ some 1 ∧
      nd0.right_child ≠ some 1) ∧
    (∃ nd1, badFT.nodes[1]? = some nd1 ∧ isLeafNd nd1 = true ∧
      nd1.parent = some 0) ∧
    (change_tree badFT 1).isSome = true := by
  refine ⟨by decide, by decide, by decide,
    ⟨⟨"", some 0, none, none, some 2, some 3⟩, by decide, by decide,
      by decide⟩,
    ⟨⟨"L", some 1, none, some 0, none, none⟩, by decide, by decide,
      by decide⟩,
    by decide⟩

/-- C6, amended: `change_tree` performs no validation.  Whenever the
selected record has a parent whose left child exists — whether or not
the selection is a leaf, and whether or not either child of the parent
equals the selection — the splice proceeds silently (a non-matching
parent silently treats the parent's left child as the sibling).  The
only internal-consistency failures are panics on a missing parent's
left child, or a missing right child when the left child is the
selection (besides the missing-parent panic of the root case). -/
theorem claim_C6_amended :
    (∀ (ft : FlatTree) (i p iS : Nat) (ndL ndP ndS : FlatNode),
      ft.nodes[i]? = some ndL → ndL.parent = some p →
      ft.nodes[p]? = some ndP →
      ((ndP.left_child = some i ∧ ndP.right_child = some iS) ∨
       (ndP.left_child = some iS ∧ iS ≠ i)) →
      ft.nodes[iS]? = some ndS → iS ≠ p →
      (∀ g, ndP.parent = some g → g ≠ p ∧ g ≠ iS ∧
        ∃ ndG, ft.nodes[g]? = some ndG) →
      (change_tree ft i).isSome = true) ∧
    (∀ (ft : FlatTree) (i p : Nat) (ndL ndP : FlatNode),
      ft.nodes[i]? = some ndL → ndL.parent = some p →
      ft.nodes[p]? = some ndP → ndP.left_child = none →
      change_tree ft i = none) ∧
    (∀ (ft : FlatTree) (i p : Nat) (ndL ndP : FlatNode),
      ft.nodes[i]? = some ndL → ndL.parent = some p →
      ft.nodes[p]? = some ndP → ndP.left_child = some i →
      ndP.right_child = none →
      change_tree ft i = none) := by
  refine ⟨?_, ?_, ?_⟩
  · intro ft i p iS ndL ndP ndS hL hp hP hsl hS hSp hG
    obtain ⟨ft', hct, -⟩ :=
      change_tree_spec ft i p iS ndL ndP ndS hL hp hP hsl hS hSp hG
    rw [hct]
    rfl
  · intro ft i p ndL ndP hL hp hP hlc
    unfold change_tree
    rw [hL, Option.some_bind, hp, Option.some_bind, hP, Option.some_bind,
      hlc]
    rfl
  · intro ft i p ndL ndP hL hp hP hlc hrc
    unfold change_tree
    rw [hL, Option.some_bind, hp, Option.some_bind, hP, Option.some_bind,
      hlc, Option.some_bind, if_pos rfl, hrc]
    rfl

theorem claim_C6_witness :
    (change_tree badFT 1).isSome = true := by
  refine claim_C6_amended.1 badFT 1 0 2
    ⟨"L", some 1, none, some 0, none, none⟩
    ⟨"", some 0, none, none, some 2, some 3⟩
    ⟨"S", some 1, none, some 0, none, none⟩
    (by decide) (by decide) (by decide)
    (Or.inr ⟨by decide, by decide⟩) (by decide) (by decide) ?_
  intro g hg
  cases hg

/-- C7: Order independence of splicing.  For a duplicate-free removal
set of leaves (not containing the surviving leaf `k`), applying
`change_tree` once per member in either of two orders succeeds and
yields the same abstract tree at the same recovered root, with the same
parent/child relations (both final arenas represent the same `TF`) and
the same field values (both preserve every record's name, branch length
and depth). -/
theorem claim_C7 (ft : FlatTree) (t : STree) (R1 R2 : List Nat) (k : Nat)
    (hrep : Represents ft t) (hperm : R1.Perm R2) (hnd1 : R1.Nodup)
    (hsub : ∀ x, x ∈ R1 → x ∈ t.leafIdx)
    (hk : k ∈ t.leafIdx) (hkR : k ∉ R1) :
    ∃ ftA ftB TF,
      remove_all_unsampled ft R1 = some ftA ∧
      remove_all_unsampled ft R2 = some ftB ∧
      Represents ftA TF ∧ Represents ftB TF ∧
      find_root (ftA.nodes.length + 1) ftA k = some TF.idx ∧
      find_root (ftB.nodes.length + 1) ftB k = some TF.idx ∧
      readTree ftA (ftA.nodes.length + 1) TF.idx = some TF ∧
      readTree ftB (ftB.nodes.length + 1) TF.idx = some TF ∧
      FieldsEq ftA ft ∧ FieldsEq ftB ft := by
  have hnd2 : R2.Nodup := hperm.nodup hnd1
  have hsub2 : ∀ x, x ∈ R2 → x ∈ t.leafIdx :=
    fun x hx => hsub x (hperm.mem_iff.mpr hx)
  have hkR2 : k ∉ R2 := fun hc => hkR (hperm.mem_iff.mpr hc)
  obtain ⟨ftA, hpassA, hrepA⟩ := splice_fold R1 ft t k hrep hnd1 hsub hk hkR
  obtain ⟨ftB, hpassB, hrepB⟩ := splice_fold R2 ft t k hrep hnd2 hsub2 hk hkR2
  have hpos : 0 < countKeep R1 t := countKeep_pos hk hkR
  have heq : R1.foldl removeLeaf t = R2.foldl removeLeaf t :=
    foldl_removeLeaf_perm hperm hnd1 hrep.1 hsub hpos
  rw [heq] at hrepA
  set TF : STree := R2.foldl removeLeaf t with hTF
  have hkTF : k ∈ TF.leafIdx := by
    rw [hTF]
    exact mem_leafIdx_foldl R2 t k hrep.1 hk hkR2
  have hmemTF : k ∈ TF.idxList := STree.leafIdx_subset_idxList TF hkTF
  have hszA : TF.size ≤ ftA.nodes.length + 1 := by
    rw [STree.size_eq_length_idxList]
    exact Nat.le_succ_of_le (represents_size_le hrepA)
  have hszB : TF.size ≤ ftB.nodes.length + 1 := by
    rw [STree.size_eq_length_idxList]
    exact Nat.le_succ_of_le (represents_size_le hrepB)
  exact ⟨ftA, ftB, TF, hpassA, hpassB, hrepA, hrepB,
    find_root_of_represents hrepA hmemTF,
    find_root_of_represents hrepB hmemTF,
    readTree_of_reprAt TF hrepA.2.2 _ hszA,
    readTree_of_reprAt TF hrepB.2.2 _ hszB,
    (remove_all_unsampled_fields hpassA).1,
    (remove_all_unsampled_fields hpassB).1⟩

theorem claim_C7_witness :
    ([1, 3] : List Nat).Perm [3, 1] ∧
    ∃ ftA ftB TF,
      remove_all_unsampled exFT [1, 3] = some ftA ∧
      remove_all_unsampled exFT [3, 1] = some ftB ∧
      Represents ftA TF ∧ Represents ftB TF ∧
      readTree ftA (ftA.nodes.length + 1) TF.idx = some TF ∧
      readTree ftB (ftB.nodes.length + 1) TF.idx = some TF := by
  refine ⟨by decide, ?_⟩
  obtain ⟨ftA, ftB, TF, h1, h2, h3, h4, -, -, h7, h8, -, -⟩ :=
    claim_C7 exFT exT [1, 3] [3, 1] 4 (by decide) (by decide) (by decide)
      (by decide) (by decide) (by decide)
  exact ⟨ftA, ftB, TF, h1, h2, h3, h4, h7, h8⟩

/-- C10, counterexample to the claim as stated: a tree with a single
leaf whose depth is assigned but NaN violates the stated precondition,
yet `find_deepest_nodes` does not abort — a one-element slice is sorted
without any comparator call, so the comparator's `unwrap` never runs. -/
theorem claim_C10_counterexample :
    ¬ (∀ p, p ∈ leafRecs nanFT → hasRatDepth p.2 = true) ∧
    (find_deepest_nodes nanFT 1).isSome = true := by
  exact ⟨by decide, by decide⟩

/-- C10, amended: `find_deepest_nodes` is total whenever every leaf
record carries an assigned, non-NaN depth.  Absent that precondition it
aborts in exactly these cases: some leaf's depth is unassigned (the
depth `unwrap` panics), or there are at least two leaves and some
assigned depth is NaN (the comparator's `unwrap` panics).  A single
leaf with a NaN depth does not abort. -/
theorem claim_C10_amended :
    (∀ (ft : FlatTree) (n : Nat),
      (∀ p, p ∈ leafRecs ft → hasRatDepth p.2 = true) →
      (find_deepest_nodes ft n).isSome = true) ∧
    (∀ (ft : FlatTree) (n : Nat),
      (∃ p, p ∈ leafRecs ft ∧ p.2.depth = none) →
      find_deepest_nodes ft n = none) ∧
    (∀ (ft : FlatTree) (n : Nat),
      2 ≤ (find_all_leaves ft).length →
      (∀ p, p ∈ leafRecs ft → (p.2.depth).isSome = true) →
      (∃ p, p ∈ leafRecs ft ∧ p.2.depth = some none) →
      find_deepest_nodes ft n = none) := by
  refine ⟨?_, ?_, ?_⟩
  · intro ft n hdep
    obtain ⟨out, hfd, -⟩ := find_deepest_full ft n
      (fun p hp => hasRatDepth_iff.mp (hdep p hp))
    rw [hfd]
    rfl
  · intro ft n ⟨p, hp, hd⟩
    have hnone : mapOpt (fun p => p.2.depth.map fun d => (p.1, d))
        (leafRecs ft) = none := by
      refine mapOpt_eq_none_of _ ⟨p, hp, ?_⟩
      rw [hd]
      rfl
    unfold find_deepest_nodes
    rw [hnone]
  · intro ft n hlen hall ⟨p, hp, hd⟩
    have hmap : mapOpt (fun p => p.2.depth.map fun d => (p.1, d))
        (leafRecs ft)
        = some ((leafRecs ft).map fun p => (p.1, p.2.depth.getD none)) := by
      refine mapOpt_eq_some_of _ (fun x hx => ?_)
      obtain ⟨d, hd'⟩ := Option.isSome_iff_exists.mp (hall x hx)
      rw [hd']
      rfl
    have hlwd : ((leafRecs ft).map
        fun p => (p.1, p.2.depth.getD none)).length
        = (find_all_leaves ft).length := by
      rw [List.length_map, find_all_leaves, List.length_map]
    have hpan : sortPanics ((leafRecs ft).map
        fun p => (p.1, p.2.depth.getD none)) = true := by
      rw [sortPanics, Bool.and_eq_true]
      refine ⟨decide_eq_true ?_, ?_⟩
      · rw [hlwd]
        exact hlen
      · rw [List.any_eq_true]
        refine ⟨(p.1, p.2.depth.getD none), List.mem_map.mpr ⟨p, hp, rfl⟩, ?_⟩
        rw [hd]
        rfl
    unfold find_deepest_nodes
    rw [hmap]
    show (if sortPanics ((leafRecs ft).map
      fun p => (p.1, p.2.depth.getD none)) then none
      else some _) = none
    rw [hpan, if_pos rfl]

theorem claim_C10_witness :
    (find_deepest_nodes exFT 3).isSome = true ∧
    find_deepest_nodes ⟨[⟨"Y", some 0, none, none, none, none⟩], 0⟩ 1
      = none := by
  refine ⟨claim_C10_amended.1 exFT 3 (by decide), ?_⟩
  exact claim_C10_amended.2.1 ⟨[⟨"Y", some 0, none, none, none, none⟩], 0⟩ 1
    ⟨(0, ⟨"Y", some 0, none, none, none, none⟩), by decide, rfl⟩
